import Mathlib

/-!
# Verification of the vault-secret-sync pipeline core

This development gives a shallow embedding, in Lean 4, of the pure core of
the `vault-secret-sync` repository: the deep-merge kernel
(`pkg/utils/deepmerge.go`), the diff engine (`pkg/diff`), the dependency
graph (`pkg/pipeline/graph.go`), the configuration model with its
validation and role-ARN resolution (`pkg/pipeline/config.go`), and a
heap-level model of the in-place mutation behaviour of `DeepMerge`.

Go values of type `interface{}` produced by `encoding/json` are modelled by
the inductive type `GoValue`: JSON numbers are carried as rationals (the
value `json.Unmarshal` stores as a `float64`), and Go's unordered
`map[string]interface{}` is modelled as an association list whose entry
order is irrelevant to every lookup-based statement proved below.
-/

/-- Model of a Go `interface{}` value as produced by `encoding/json`:
`nil`, `bool`, `float64` (carried exactly as a rational), `string`,
`[]interface{}` and `map[string]interface{}` (association list). -/
inductive GoValue where
  | vnull : GoValue
  | vbool : Bool → GoValue
  | vnum : ℚ → GoValue
  | vstr : String → GoValue
  | varr : List GoValue → GoValue
  | vobj : List (String × GoValue) → GoValue

/-- Go map read `m[k]`: first binding of `k` in the association list
(polymorphic — used for secret payload maps and for the configuration's
name-keyed maps alike). -/
def alookup {α : Type} : List (String × α) → String → Option α
  | [], _ => none
  | (k', v) :: rest, k => if k' = k then some v else alookup rest k

/-- Go map write `m[k] = v`: replace the first binding of `k`, or append. -/
def setKey {α : Type} : List (String × α) → String → α → List (String × α)
  | [], k, v => [(k, v)]
  | (k', v') :: rest, k, v =>
    if k' = k then (k, v) :: rest else (k', v') :: setKey rest k v

mutual

/-- Definition `deepCopyValue` from `pkg/utils/deepmerge.go`: maps and slices are
copied recursively, everything else (scalars, `nil`) is returned as is. -/
def deepCopyValue : GoValue → GoValue
  | .vobj entries => .vobj (deepCopyEntries entries)
  | .varr elems => .varr (deepCopyList elems)
  | v => v

/-- The entry loop of `deepCopyValue` on a map. -/
def deepCopyEntries : List (String × GoValue) → List (String × GoValue)
  | [] => []
  | (k, v) :: rest => (k, deepCopyValue v) :: deepCopyEntries rest

/-- The element loop of `deepCopyValue` on a slice. -/
def deepCopyList : List GoValue → List GoValue
  | [] => []
  | v :: rest => deepCopyValue v :: deepCopyList rest

end

/-- Definition `appendSlices` from `pkg/utils/deepmerge.go`: deep copies of `dst`
followed by deep copies of `src`. -/
def appendSlices (dst src : List GoValue) : List GoValue :=
  deepCopyList dst ++ deepCopyList src

mutual

/-- Definition `DeepMerge` from `pkg/utils/deepmerge.go`, value level.  A `nil` Go map
is modelled by the empty association list (the source turns a nil `dst`
into a fresh empty map and returns `dst` unchanged on a nil `src`, which
the list model absorbs). -/
def DeepMerge (dst src : List (String × GoValue)) : List (String × GoValue) :=
  mergeEntries dst src

/-- The `for key, srcVal := range src` loop of `DeepMerge`: a key absent
from `dst` is inserted as a deep copy, a key present in both is merged by
`mergeValues`. -/
def mergeEntries : List (String × GoValue) → List (String × GoValue) →
    List (String × GoValue)
  | dst, [] => dst
  | dst, (key, srcVal) :: rest =>
    match alookup dst key with
    | none => mergeEntries (setKey dst key (deepCopyValue srcVal)) rest
    | some dstVal => mergeEntries (setKey dst key (mergeValues dstVal srcVal)) rest

/-- Definition `mergeValues` from `pkg/utils/deepmerge.go`: nil `src` keeps `dst`,
nil `dst` deep-copies `src`, two maps merge recursively, two slices
append, anything else is overridden by a deep copy of `src`. -/
def mergeValues : GoValue → GoValue → GoValue
  | dst, .vnull => dst
  | .vnull, src => deepCopyValue src
  | dst, .vobj srcEntries =>
    match dst with
    | .vobj dstEntries => .vobj (DeepMerge dstEntries srcEntries)
    | _ => deepCopyValue (.vobj srcEntries)
  | dst, .varr srcElems =>
    match dst with
    | .varr dstElems => .varr (appendSlices dstElems srcElems)
    | _ => deepCopyValue (.varr srcElems)
  | _, src => deepCopyValue src

end

mutual

theorem deepCopyValue_id : ∀ v : GoValue, deepCopyValue v = v
  | .vnull => rfl
  | .vbool _ => rfl
  | .vnum _ => rfl
  | .vstr _ => rfl
  | .vobj entries => by rw [deepCopyValue, deepCopyEntries_id]
  | .varr elems => by rw [deepCopyValue, deepCopyList_id]

theorem deepCopyEntries_id : ∀ l : List (String × GoValue), deepCopyEntries l = l
  | [] => rfl
  | (k, v) :: rest => by rw [deepCopyEntries, deepCopyValue_id, deepCopyEntries_id]

theorem deepCopyList_id : ∀ l : List GoValue, deepCopyList l = l
  | [] => rfl
  | v :: rest => by rw [deepCopyList, deepCopyValue_id, deepCopyList_id]

end

theorem appendSlices_eq_append (dst src : List GoValue) :
    appendSlices dst src = dst ++ src := by
  rw [appendSlices, deepCopyList_id, deepCopyList_id]

theorem alookup_setKey_self {α : Type} (m : List (String × α)) (k : String) (v : α) :
    alookup (setKey m k v) k = some v := by
  induction m with
  | nil => simp [setKey, alookup]
  | cons hd rest ih =>
    obtain ⟨k', v'⟩ := hd
    by_cases h : k' = k
    · simp [setKey, h, alookup]
    · simp [setKey, h, alookup, ih]

theorem alookup_setKey_other {α : Type} (m : List (String × α)) (k k' : String)
    (v : α) (hne : k' ≠ k) : alookup (setKey m k' v) k = alookup m k := by
  induction m with
  | nil => simp [setKey, alookup, hne]
  | cons hd rest ih =>
    obtain ⟨k₀, v₀⟩ := hd
    by_cases h : k₀ = k'
    · subst h
      simp [setKey, alookup, hne]
    · simp [setKey, h, alookup, ih]

theorem alookup_eq_none_of_notin {α : Type} (m : List (String × α)) (k : String)
    (h : k ∉ m.map Prod.fst) : alookup m k = none := by
  induction m with
  | nil => rfl
  | cons hd rest ih =>
    obtain ⟨k', v'⟩ := hd
    simp only [List.map_cons, List.mem_cons] at h
    push_neg at h
    rw [alookup, if_neg (by exact fun hc => h.1 hc.symm)]
    exact ih h.2

theorem alookup_mergeEntries_of_src_none (src : List (String × GoValue)) :
    ∀ (dst : List (String × GoValue)) (k : String), alookup src k = none →
      alookup (mergeEntries dst src) k = alookup dst k := by
  induction src with
  | nil => intro dst k _; rw [mergeEntries]
  | cons hd rest ih =>
    intro dst k hk
    obtain ⟨key, srcVal⟩ := hd
    rw [alookup] at hk
    by_cases hkey : key = k
    · rw [if_pos hkey] at hk; cases hk
    · rw [if_neg hkey] at hk
      rw [mergeEntries]
      cases halo : alookup dst key with
      | none =>
        simp only [halo]
        rw [ih _ _ hk, alookup_setKey_other _ _ _ _ hkey]
      | some dstVal =>
        simp only [halo]
        rw [ih _ _ hk, alookup_setKey_other _ _ _ _ hkey]

theorem alookup_mergeEntries_some (src : List (String × GoValue))
    (hsrc : (src.map Prod.fst).Nodup) :
    ∀ (dst : List (String × GoValue)) (k : String) (av bv : GoValue),
      alookup dst k = some av → alookup src k = some bv →
      alookup (mergeEntries dst src) k = some (mergeValues av bv) := by
  induction src with
  | nil => intro dst k av bv _ hb; cases hb
  | cons hd rest ih =>
    obtain ⟨key, srcVal⟩ := hd
    simp only [List.map_cons, List.nodup_cons] at hsrc
    obtain ⟨hnotin, hrest⟩ := hsrc
    intro dst k av bv ha hb
    rw [alookup] at hb
    by_cases hkey : key = k
    · subst hkey
      rw [if_pos rfl] at hb
      injection hb with hb'
      subst hb'
      rw [mergeEntries]
      simp only [ha]
      rw [alookup_mergeEntries_of_src_none rest _ _
        (alookup_eq_none_of_notin rest key hnotin)]
      exact alookup_setKey_self dst key _
    · rw [if_neg hkey] at hb
      rw [mergeEntries]
      cases halo : alookup dst key with
      | none =>
        simp only [halo]
        exact ih hrest _ _ _ _
          (by rw [alookup_setKey_other _ _ _ _ hkey]; exact ha) hb
      | some dstVal =>
        simp only [halo]
        exact ih hrest _ _ _ _
          (by rw [alookup_setKey_other _ _ _ _ hkey]; exact ha) hb

theorem mergeValues_src_null (av : GoValue) : mergeValues av .vnull = av := by
  cases av <;> simp [mergeValues]

theorem mergeValues_arr_arr (xs ys : List GoValue) :
    mergeValues (.varr xs) (.varr ys) = .varr (xs ++ ys) := by
  rw [mergeValues, appendSlices_eq_append]

theorem mergeValues_obj_obj (ma mb : List (String × GoValue)) :
    mergeValues (.vobj ma) (.vobj mb) = .vobj (DeepMerge ma mb) := by
  rw [mergeValues]

theorem mergeValues_override (av bv : GoValue) (hnull : bv ≠ .vnull)
    (harr : ∀ xs ys, ¬(av = .varr xs ∧ bv = .varr ys))
    (hobj : ∀ ma mb, ¬(av = .vobj ma ∧ bv = .vobj mb)) :
    mergeValues av bv = bv := by
  cases bv with
  | vnull => exact absurd rfl hnull
  | vbool b => cases av <;> simp [mergeValues, deepCopyValue_id]
  | vnum q => cases av <;> simp [mergeValues, deepCopyValue_id]
  | vstr s => cases av <;> simp [mergeValues, deepCopyValue_id]
  | varr ys =>
    cases av with
    | varr xs => exact absurd ⟨rfl, rfl⟩ (harr xs ys)
    | vnull => simp [mergeValues, deepCopyValue_id]
    | vbool b => simp [mergeValues, deepCopyValue_id]
    | vnum q => simp [mergeValues, deepCopyValue_id]
    | vstr s => simp [mergeValues, deepCopyValue_id]
    | vobj ma => simp [mergeValues, deepCopyValue_id]
  | vobj mb =>
    cases av with
    | vobj ma => exact absurd ⟨rfl, rfl⟩ (hobj ma mb)
    | vnull => simp [mergeValues, deepCopyValue_id]
    | vbool b => simp [mergeValues, deepCopyValue_id]
    | vnum q => simp [mergeValues, deepCopyValue_id]
    | vstr s => simp [mergeValues, deepCopyValue_id]
    | varr xs => simp [mergeValues, deepCopyValue_id]

/-- C4: for every key `k` present in maps `A` and `B`, `DeepMerge A B` at
`k` is: the concatenation `A[k] ++ B[k]` when both are sequences (order
preserved, no deduplication); the recursive merge when both are mappings;
`B[k]` when either side is a scalar or the types mismatch (src wins); and
`A[k]` when `B[k]` is null. -/
theorem deepMerge_key_semantics (A B : List (String × GoValue)) (k : String)
    (hB : (B.map Prod.fst).Nodup) (av bv : GoValue)
    (ha : alookup A k = some av) (hb : alookup B k = some bv) :
    (∀ xs ys, av = .varr xs → bv = .varr ys →
      alookup (DeepMerge A B) k = some (.varr (xs ++ ys))) ∧
    (∀ ma mb, av = .vobj ma → bv = .vobj mb →
      alookup (DeepMerge A B) k = some (.vobj (DeepMerge ma mb))) ∧
    (bv ≠ .vnull → (∀ xs ys, ¬(av = .varr xs ∧ bv = .varr ys)) →
      (∀ ma mb, ¬(av = .vobj ma ∧ bv = .vobj mb)) →
      alookup (DeepMerge A B) k = some bv) ∧
    (bv = .vnull → alookup (DeepMerge A B) k = some av) := by
  have hmain : alookup (DeepMerge A B) k = some (mergeValues av bv) := by
    rw [DeepMerge]
    exact alookup_mergeEntries_some B hB A k av bv ha hb
  refine ⟨?_, ?_, ?_, ?_⟩
  · rintro xs ys rfl rfl
    rw [hmain, mergeValues_arr_arr]
  · rintro ma mb rfl rfl
    rw [hmain, mergeValues_obj_obj]
  · intro hnull harr hobj
    rw [hmain, mergeValues_override av bv hnull harr hobj]
  · rintro rfl
    rw [hmain, mergeValues_src_null]

/-- C4 witness: concrete instance with sequences, mappings, a scalar
override and a null preservation. -/
theorem deepMerge_key_semantics_witness :
    alookup (DeepMerge [("k", GoValue.varr [.vnum 1])]
      [("k", GoValue.varr [.vnum 2])]) "k" = some (.varr [.vnum 1, .vnum 2]) ∧
    alookup (DeepMerge [("s", GoValue.vnum 1)] [("s", GoValue.vnull)]) "s"
      = some (.vnum 1) := by
  constructor
  · exact (deepMerge_key_semantics [("k", GoValue.varr [.vnum 1])]
      [("k", GoValue.varr [.vnum 2])] "k" (by simp) _ _ rfl rfl).1 _ _ rfl rfl
  · exact (deepMerge_key_semantics [("s", GoValue.vnum 1)]
      [("s", GoValue.vnull)] "s" (by simp) _ _ rfl rfl).2.2.2 rfl

mutual

/-- Model of `reflect.DeepEqual` restricted to the `interface{}` universe
produced by `encoding/json`: slices compare pointwise, maps compare as
finite maps (equal size and every key of the left map bound in the right
map to a deep-equal value), scalars compare by value. -/
def reflectDeepEqual : GoValue → GoValue → Bool
  | .vnull, .vnull => true
  | .vbool a, .vbool b => a == b
  | .vnum a, .vnum b => decide (a = b)
  | .vstr a, .vstr b => a == b
  | .varr a, .varr b => reflectDeepEqualList a b
  | .vobj a, .vobj b => a.length == b.length && reflectDeepEqualEntries a b
  | _, _ => false

/-- Pointwise slice comparison of `reflect.DeepEqual`. -/
def reflectDeepEqualList : List GoValue → List GoValue → Bool
  | [], [] => true
  | a :: as, b :: bs => reflectDeepEqual a b && reflectDeepEqualList as bs
  | _, _ => false

/-- Per-key map comparison of `reflect.DeepEqual`: every binding of the
left map matches a deep-equal binding in the right map. -/
def reflectDeepEqualEntries : List (String × GoValue) → List (String × GoValue) → Bool
  | [], _ => true
  | (k, v) :: rest, b =>
    (match alookup b k with
     | some w => reflectDeepEqual v w
     | none => false) && reflectDeepEqualEntries rest b

end

mutual

/-- Definition `normalizeValue` from `pkg/utils/deepmerge.go`: recurses into maps and
slices and widens every numeric type (`json.Number`, `int`, `int32`,
`int64`) to `float64`.  In the modelled universe every number is already
the `float64` `json.Unmarshal` produced (constructor `vnum`), so those
widening arms are the identity here. -/
def normalizeValue : GoValue → GoValue
  | .vobj entries => .vobj (normalizeEntries entries)
  | .varr elems => .varr (normalizeList elems)
  | v => v

/-- The map recursion of `normalizeValue`. -/
def normalizeEntries : List (String × GoValue) → List (String × GoValue)
  | [] => []
  | (k, v) :: rest => (k, normalizeValue v) :: normalizeEntries rest

/-- The slice recursion of `normalizeValue`. -/
def normalizeList : List GoValue → List GoValue
  | [] => []
  | v :: rest => normalizeValue v :: normalizeList rest

end

/-- Definition `DeepEqual` from `pkg/utils/deepmerge.go`: normalize both sides, then
compare with `reflect.DeepEqual`. -/
def DeepEqual (a b : GoValue) : Bool :=
  reflectDeepEqual (normalizeValue a) (normalizeValue b)

mutual

theorem normalizeValue_id : ∀ v : GoValue, normalizeValue v = v
  | .vnull => rfl
  | .vbool _ => rfl
  | .vnum _ => rfl
  | .vstr _ => rfl
  | .vobj entries => by rw [normalizeValue, normalizeEntries_id]
  | .varr elems => by rw [normalizeValue, normalizeList_id]

theorem normalizeEntries_id : ∀ l : List (String × GoValue), normalizeEntries l = l
  | [] => rfl
  | (k, v) :: rest => by rw [normalizeEntries, normalizeValue_id, normalizeEntries_id]

theorem normalizeList_id : ∀ l : List GoValue, normalizeList l = l
  | [] => rfl
  | v :: rest => by rw [normalizeList, normalizeValue_id, normalizeList_id]

end

/-- Definition `SecretChange` from the diff engine (`pkg/diff`): one change record
per secret path.  `changeType` is the Go string constant. -/
structure SecretChange where
  path : String := ""
  changeType : String := ""
  target : String := ""
  keysAdded : List String := []
  keysRemoved : List String := []
  keysModified : List String := []
  currentKeys : List String := []
  desiredKeys : List String := []

/-- Definition `ChangeSummary` from the diff engine; Go `int` counters. -/
structure ChangeSummary where
  added : Int
  removed : Int
  modified : Int
  unchanged : Int
  total : Int

/-- Definition `ChangeSummary.IsZeroSum`: no added, removed or modified changes. -/
def ChangeSummary.IsZeroSum (s : ChangeSummary) : Bool :=
  s.added == 0 && s.removed == 0 && s.modified == 0

/-- Definition `ChangeSummary.HasChanges`. -/
def ChangeSummary.HasChanges (s : ChangeSummary) : Bool :=
  !s.IsZeroSum

/-- Definition `TargetDiff` from the diff engine. -/
structure TargetDiff where
  target : String := ""
  changes : List SecretChange := []
  summary : ChangeSummary := ⟨0, 0, 0, 0, 0⟩

/-- Definition `PipelineDiff` from the diff engine. -/
structure PipelineDiff where
  targets : List TargetDiff := []
  summary : ChangeSummary := ⟨0, 0, 0, 0, 0⟩
  dryRun : Bool := false
  configPath : String := ""

/-- Definition `PipelineDiff.IsZeroSum`. -/
def PipelineDiff.IsZeroSum (p : PipelineDiff) : Bool :=
  p.summary.IsZeroSum

/-- Definition `PipelineDiff.ExitCode`: 0 on a zero-sum diff, 1 otherwise. -/
def PipelineDiff.ExitCode (p : PipelineDiff) : Int :=
  if p.IsZeroSum then 0 else 1

/-- Definition `getMapKeys` from the diff engine: sorted keys of a map value, `nil`
for non-maps (`sort.Strings` is modelled by insertion sort over the
byte-order on strings, which agrees with the codepoint order). -/
def getMapKeys (v : GoValue) : List String :=
  match v with
  | .vobj m => List.insertionSort (· ≤ ·) (m.map Prod.fst)
  | _ => []

/-- Definition `diffMapKeys` from the diff engine: key-level added/removed/modified
sets between two map values; the sentinel `<value>` when either side is
not a map. -/
def diffMapKeys (current desired : GoValue) :
    List String × List String × List String :=
  match current, desired with
  | .vobj currentMap, .vobj desiredMap =>
    let added := desiredMap.filterMap fun kv =>
      if (alookup currentMap kv.1).isNone then some kv.1 else none
    let modified := desiredMap.filterMap fun kv =>
      match alookup currentMap kv.1 with
      | some cv => if DeepEqual cv kv.2 then none else some kv.1
      | none => none
    let removed := currentMap.filterMap fun kv =>
      if (alookup desiredMap kv.1).isNone then some kv.1 else none
    (List.insertionSort (· ≤ ·) added, List.insertionSort (· ≤ ·) removed,
      List.insertionSort (· ≤ ·) modified)
  | _, _ => ([], [], ["<value>"])

/-- The desired-side loop body of `DiffSecrets`: a path missing from
`current` is `added`; a path in both is `unchanged` when `DeepEqual` holds
and `modified` (with key-level detail) otherwise. -/
def desiredChange (current : List (String × GoValue)) :
    String × GoValue → SecretChange
  | (path, desiredVal) =>
    match alookup current path with
    | none =>
      { path := path, changeType := "added", desiredKeys := getMapKeys desiredVal }
    | some currentVal =>
      if DeepEqual currentVal desiredVal then
        { path := path, changeType := "unchanged",
          currentKeys := getMapKeys currentVal,
          desiredKeys := getMapKeys desiredVal }
      else
        { path := path, changeType := "modified",
          currentKeys := getMapKeys currentVal,
          desiredKeys := getMapKeys desiredVal,
          keysAdded := (diffMapKeys currentVal desiredVal).1,
          keysRemoved := (diffMapKeys currentVal desiredVal).2.1,
          keysModified := (diffMapKeys currentVal desiredVal).2.2 }

/-- The current-side loop body of `DiffSecrets`: a path not seen in the
desired map is `removed`. -/
def removedChange (desired : List (String × GoValue)) :
    String × GoValue → Option SecretChange
  | (path, currentVal) =>
    if (alookup desired path).isNone then
      some { path := path, changeType := "removed",
             currentKeys := getMapKeys currentVal }
    else
      none

/-- Definition `DiffSecrets` from the diff engine: one record per desired path, then
one `removed` record per current-only path, sorted by path
(`sort.Slice` with `changes[i].Path < changes[j].Path`). -/
def DiffSecrets (current desired : List (String × GoValue)) :
    List SecretChange :=
  List.insertionSort (fun a b => a.path ≤ b.path)
    (desired.map (desiredChange current) ++ current.filterMap (removedChange desired))

/-- The loop body of `ComputeSummary`: bump the counter selected by the
change type — the `switch` has no default arm — then bump the total. -/
def summaryStep (s : ChangeSummary) (c : SecretChange) : ChangeSummary :=
  let s' :=
    if c.changeType = "added" then { s with added := s.added + 1 }
    else if c.changeType = "removed" then { s with removed := s.removed + 1 }
    else if c.changeType = "modified" then { s with modified := s.modified + 1 }
    else if c.changeType = "unchanged" then { s with unchanged := s.unchanged + 1 }
    else s
  { s' with total := s'.total + 1 }

/-- Definition `ComputeSummary` from the diff engine. -/
def ComputeSummary (changes : List SecretChange) : ChangeSummary :=
  changes.foldl summaryStep ⟨0, 0, 0, 0, 0⟩

/-- C7: `IsZeroSum()` is true exactly when the added, removed and modified
counts are all zero — the unchanged (and total) counts are irrelevant —
and `ExitCode()` maps a zero-sum pipeline diff to 0 and any diff with a
change present to 1. -/
theorem isZeroSum_exitCode_spec :
    (∀ s : ChangeSummary,
      s.IsZeroSum = true ↔ (s.added = 0 ∧ s.removed = 0 ∧ s.modified = 0)) ∧
    (∀ a r m u u' t t' : Int,
      ChangeSummary.IsZeroSum ⟨a, r, m, u, t⟩ =
        ChangeSummary.IsZeroSum ⟨a, r, m, u', t'⟩) ∧
    (∀ p : PipelineDiff,
      (p.summary.IsZeroSum = true → p.ExitCode = 0) ∧
      (p.summary.IsZeroSum = false → p.ExitCode = 1)) := by
  refine ⟨?_, ?_, ?_⟩
  · intro s
    simp [ChangeSummary.IsZeroSum, and_assoc]
  · intro a r m u u' t t'
    simp [ChangeSummary.IsZeroSum]
  · intro p
    constructor
    · intro h
      simp [PipelineDiff.ExitCode, PipelineDiff.IsZeroSum, h]
    · intro h
      simp [PipelineDiff.ExitCode, PipelineDiff.IsZeroSum, h]

/-- C7 witness: a summary with only unchanged entries is zero-sum, and a
concrete pipeline diff with one added change exits with code 1. -/
theorem isZeroSum_exitCode_spec_witness :
    ChangeSummary.IsZeroSum ⟨0, 0, 0, 5, 5⟩ = true ∧
    PipelineDiff.ExitCode ⟨[], ⟨1, 0, 0, 0, 1⟩, false, ""⟩ = 1 := by
  constructor
  · exact (isZeroSum_exitCode_spec.1 ⟨0, 0, 0, 5, 5⟩).mpr ⟨rfl, rfl, rfl⟩
  · exact (isZeroSum_exitCode_spec.2.2 ⟨[], ⟨1, 0, 0, 0, 1⟩, false, ""⟩).2 (by decide)

theorem alookup_isSome_of_mem_keys {α : Type} (m : List (String × α)) (k : String)
    (h : k ∈ m.map Prod.fst) : (alookup m k).isSome := by
  induction m with
  | nil => simp at h
  | cons hd rest ih =>
    obtain ⟨k', v'⟩ := hd
    by_cases hk : k' = k
    · simp [alookup, hk]
    · simp only [List.map_cons, List.mem_cons] at h
      rcases h with h | h
      · exact absurd h.symm hk
      · simp only [alookup, if_neg hk]
        exact ih h

theorem alookup_of_mem_nodup {α : Type} (m : List (String × α))
    (hm : (m.map Prod.fst).Nodup) (k : String) (v : α)
    (hmem : (k, v) ∈ m) : alookup m k = some v := by
  induction m with
  | nil => simp at hmem
  | cons hd rest ih =>
    obtain ⟨k', v'⟩ := hd
    simp only [List.map_cons, List.nodup_cons] at hm
    rcases List.mem_cons.mp hmem with h | h
    · obtain ⟨hk, hv⟩ := Prod.mk.injEq .. ▸ h
      injection h with h1 h2
      subst h1; subst h2
      simp [alookup]
    · have hk : k' ≠ k := by
        intro hkk
        subst hkk
        exact hm.1 (List.mem_map.mpr ⟨(k', v), h, rfl⟩)
      simp only [alookup, if_neg hk]
      exact ih hm.2 h

theorem desiredChange_path (current : List (String × GoValue))
    (kv : String × GoValue) : (desiredChange current kv).path = kv.1 := by
  obtain ⟨path, dv⟩ := kv
  cases h : alookup current path with
  | none => simp [desiredChange, h]
  | some cv =>
    simp only [desiredChange, h]
    split <;> rfl

theorem countP_keys_nodup (l : List (String × GoValue))
    (hl : (l.map Prod.fst).Nodup) (p : String) :
    l.countP (fun kv => kv.1 == p) = if p ∈ l.map Prod.fst then 1 else 0 := by
  induction l with
  | nil => simp
  | cons hd rest ih =>
    obtain ⟨k, v⟩ := hd
    simp only [List.map_cons, List.nodup_cons] at hl
    rw [List.countP_cons]
    by_cases hk : k = p
    · subst hk
      have : k ∉ rest.map Prod.fst := hl.1
      rw [ih hl.2]
      simp [this]
    · rw [ih hl.2]
      simp only [List.map_cons, List.mem_cons]
      by_cases hp : p ∈ rest.map Prod.fst
      · simp [hp, hk, Ne.symm hk]
      · simp [hp, hk, Ne.symm hk]

theorem countP_removed (desired : List (String × GoValue)) (p : String) :
    ∀ current : List (String × GoValue), (current.map Prod.fst).Nodup →
    (current.filterMap (removedChange desired)).countP (fun r => r.path == p) =
      if p ∈ current.map Prod.fst ∧ (alookup desired p).isNone then 1 else 0 := by
  intro current
  induction current with
  | nil => simp
  | cons hd rest ih =>
    obtain ⟨k, v⟩ := hd
    intro hnd
    simp only [List.map_cons, List.nodup_cons] at hnd
    rw [List.filterMap_cons]
    by_cases hn : (alookup desired k).isNone
    · simp only [removedChange, if_pos hn]
      rw [List.countP_cons, ih hnd.2]
      by_cases hk : k = p
      · subst hk
        simp [hn, hnd.1]
      · simp only [List.map_cons, List.mem_cons]
        by_cases hp : p ∈ rest.map Prod.fst ∧ (alookup desired p).isNone
        · simp [hp, hk, Ne.symm hk, hp.1, hp.2]
        · have hne : ¬((p = k ∨ p ∈ rest.map Prod.fst) ∧ (alookup desired p).isNone = true) := by
            intro hcon
            rcases hcon.1 with h | h
            · exact hk h.symm
            · exact hp ⟨h, hcon.2⟩
          rw [if_neg hp, if_neg hne]
          simp [hk]
    · simp only [removedChange, if_neg hn]
      rw [ih hnd.2]
      by_cases hk : k = p
      · subst hk
        have hns : ¬(alookup desired k).isNone = true := hn
        simp only [List.map_cons, List.mem_cons]
        by_cases hp : k ∈ rest.map Prod.fst ∧ (alookup desired k).isNone
        · exact absurd hp.2 hns
        · have hne : ¬((True ∨ k ∈ rest.map Prod.fst) ∧ (alookup desired k).isNone = true) :=
            fun hcon => hns hcon.2
          rw [if_neg hp, if_neg hne]
      · simp only [List.map_cons, List.mem_cons]
        by_cases hp : p ∈ rest.map Prod.fst ∧ (alookup desired p).isNone
        · have : (p = k ∨ p ∈ rest.map Prod.fst) ∧ (alookup desired p).isNone = true :=
            ⟨Or.inr hp.1, hp.2⟩
          rw [if_pos hp, if_pos this]
        · have hne : ¬((p = k ∨ p ∈ rest.map Prod.fst) ∧ (alookup desired p).isNone = true) := by
            intro hcon
            rcases hcon.1 with h | h
            · exact hk h.symm
            · exact hp ⟨h, hcon.2⟩
          rw [if_neg hp, if_neg hne]

theorem desiredChange_type_none (current : List (String × GoValue)) (path : String)
    (dv : GoValue) (h : alookup current path = none) :
    (desiredChange current (path, dv)).changeType = "added" := by
  simp [desiredChange, h]

theorem desiredChange_type_some (current : List (String × GoValue)) (path : String)
    (dv cv : GoValue) (h : alookup current path = some cv) :
    (desiredChange current (path, dv)).changeType =
      if DeepEqual cv dv then "unchanged" else "modified" := by
  simp only [desiredChange, h]
  by_cases hde : DeepEqual cv dv
  · rw [if_pos hde, if_pos hde]
  · rw [if_neg hde, if_neg hde]

theorem removedChange_eq_some (desired : List (String × GoValue))
    (kv : String × GoValue) (r : SecretChange)
    (h : removedChange desired kv = some r) :
    (alookup desired kv.1).isNone ∧ r.path = kv.1 ∧ r.changeType = "removed" := by
  obtain ⟨path, cv⟩ := kv
  by_cases hn : (alookup desired path).isNone
  · simp only [removedChange, if_pos hn] at h
    injection h with h
    subst h
    exact ⟨hn, rfl, rfl⟩
  · simp only [removedChange, if_neg hn] at h
    cases h

theorem summaryStep_invariant (s : ChangeSummary) (c : SecretChange)
    (hs : s.added + s.removed + s.modified + s.unchanged = s.total)
    (hc : c.changeType = "added" ∨ c.changeType = "removed" ∨
      c.changeType = "modified" ∨ c.changeType = "unchanged") :
    (summaryStep s c).added + (summaryStep s c).removed +
      (summaryStep s c).modified + (summaryStep s c).unchanged =
      (summaryStep s c).total := by
  rcases hc with h | h | h | h <;> simp [summaryStep, h] <;> omega

theorem computeSummary_foldl_invariant (changes : List SecretChange)
    (h : ∀ r ∈ changes, r.changeType = "added" ∨ r.changeType = "removed" ∨
      r.changeType = "modified" ∨ r.changeType = "unchanged") :
    ∀ s : ChangeSummary, s.added + s.removed + s.modified + s.unchanged = s.total →
      (changes.foldl summaryStep s).added + (changes.foldl summaryStep s).removed +
        (changes.foldl summaryStep s).modified +
        (changes.foldl summaryStep s).unchanged =
        (changes.foldl summaryStep s).total := by
  induction changes with
  | nil => intro s hs; simpa using hs
  | cons c rest ih =>
    intro s hs
    rw [List.foldl_cons]
    exact ih (fun r hr => h r (List.mem_cons_of_mem _ hr)) _
      (summaryStep_invariant s c hs (h c (List.mem_cons_self _ _)))

theorem diffSecrets_mem_types (current desired : List (String × GoValue))
    (r : SecretChange)
    (hr : r ∈ desired.map (desiredChange current) ++
      current.filterMap (removedChange desired)) :
    r.changeType = "added" ∨ r.changeType = "removed" ∨
      r.changeType = "modified" ∨ r.changeType = "unchanged" := by
  rcases List.mem_append.mp hr with h | h
  · obtain ⟨⟨k, dv⟩, hkv, rfl⟩ := List.mem_map.mp h
    cases hc : alookup current k with
    | none => exact Or.inl (desiredChange_type_none current k dv hc)
    | some cv =>
      have htype := desiredChange_type_some current k dv cv hc
      by_cases hde : DeepEqual cv dv
      · exact Or.inr (Or.inr (Or.inr (by rw [htype, if_pos hde])))
      · exact Or.inr (Or.inr (Or.inl (by rw [htype, if_neg hde])))
  · obtain ⟨kv, hkv, heq⟩ := List.mem_filterMap.mp h
    exact Or.inr (Or.inl (removedChange_eq_some desired kv r heq).2.2)

/-- C6: for maps `current` and `desired`, `DiffSecrets` emits exactly one
change record per path in the union of the key sets, classified
added / removed / unchanged / modified by presence and `DeepEqual`; the
output is sorted by path; and `ComputeSummary` of the output satisfies
added + removed + modified + unchanged = total. -/
theorem diffSecrets_spec (current desired : List (String × GoValue))
    (hc : (current.map Prod.fst).Nodup) (hd : (desired.map Prod.fst).Nodup) :
    (∀ p : String,
      (DiffSecrets current desired).countP (fun r => r.path == p) =
        if p ∈ current.map Prod.fst ∨ p ∈ desired.map Prod.fst then 1 else 0) ∧
    (∀ r ∈ DiffSecrets current desired,
      ((alookup current r.path).isNone → r.changeType = "added") ∧
      ((alookup desired r.path).isNone → r.changeType = "removed") ∧
      (∀ cv dv, alookup current r.path = some cv →
        alookup desired r.path = some dv →
        r.changeType = if DeepEqual cv dv then "unchanged" else "modified")) ∧
    List.Sorted (fun a b : SecretChange => a.path ≤ b.path)
      (DiffSecrets current desired) ∧
    ((ComputeSummary (DiffSecrets current desired)).added +
      (ComputeSummary (DiffSecrets current desired)).removed +
      (ComputeSummary (DiffSecrets current desired)).modified +
      (ComputeSummary (DiffSecrets current desired)).unchanged =
      (ComputeSummary (DiffSecrets current desired)).total) := by
  have hperm :
      (DiffSecrets current desired).Perm
        (desired.map (desiredChange current) ++
          current.filterMap (removedChange desired)) := by
    rw [DiffSecrets]
    exact List.perm_insertionSort _ _
  refine ⟨?_, ?_, ?_, ?_⟩
  · intro p
    rw [hperm.countP_eq, List.countP_append]
    have hdes :
        (desired.map (desiredChange current)).countP (fun r => r.path == p) =
          desired.countP (fun kv => kv.1 == p) := by
      rw [List.countP_map]
      apply List.countP_congr
      intro kv _
      simp [Function.comp, desiredChange_path]
    rw [hdes, countP_keys_nodup desired hd p, countP_removed desired p current hc]
    by_cases hd1 : p ∈ desired.map Prod.fst
    · have hsome : (alookup desired p).isSome :=
        alookup_isSome_of_mem_keys desired p hd1
      have hnn : ¬((alookup desired p).isNone = true) := by
        rcases Option.isSome_iff_exists.mp hsome with ⟨v, hv⟩
        simp [hv]
      have : ¬(p ∈ current.map Prod.fst ∧ (alookup desired p).isNone = true) :=
        fun hcon => hnn hcon.2
      rw [if_pos hd1, if_neg this, if_pos (Or.inr hd1)]
    · have hnone : (alookup desired p).isNone := by
        rw [alookup_eq_none_of_notin desired p hd1]
        rfl
      rw [if_neg hd1]
      by_cases hc1 : p ∈ current.map Prod.fst
      · rw [if_pos ⟨hc1, hnone⟩, if_pos (Or.inl hc1)]
      · have : ¬(p ∈ current.map Prod.fst ∨ p ∈ desired.map Prod.fst) := by
          rintro (h | h)
          · exact hc1 h
          · exact hd1 h
        rw [if_neg (fun hcon => hc1 hcon.1), if_neg this]
  · intro r hr
    have hr' := hperm.subset hr
    rcases List.mem_append.mp hr' with h | h
    · obtain ⟨⟨k, dv⟩, hkv, rfl⟩ := List.mem_map.mp h
      have hpath : (desiredChange current (k, dv)).path = k :=
        desiredChange_path current (k, dv)
      have hlookd : alookup desired k = some dv :=
        alookup_of_mem_nodup desired hd k dv hkv
      refine ⟨?_, ?_, ?_⟩
      · intro hnone
        rw [hpath] at hnone
        exact desiredChange_type_none current k dv (Option.isNone_iff_eq_none.mp hnone)
      · intro hnone
        rw [hpath] at hnone
        rw [hlookd] at hnone
        cases hnone
      · intro cv dv' hcv hdv'
        rw [hpath] at hcv hdv'
        rw [hlookd] at hdv'
        injection hdv' with hdv'
        subst hdv'
        exact desiredChange_type_some current k dv cv hcv
    · obtain ⟨⟨k, cv0⟩, hkv, heq⟩ := List.mem_filterMap.mp h
      obtain ⟨hn, hpath, htype⟩ := removedChange_eq_some desired (k, cv0) r heq
      refine ⟨?_, ?_, ?_⟩
      · intro hnone
        rw [hpath] at hnone
        have : k ∈ current.map Prod.fst := List.mem_map.mpr ⟨(k, cv0), hkv, rfl⟩
        have hsome := alookup_isSome_of_mem_keys current k this
        rcases Option.isSome_iff_exists.mp hsome with ⟨v, hv⟩
        rw [hv] at hnone
        cases hnone
      · intro _
        exact htype
      · intro cv dv hcv hdv
        rw [hpath] at hdv
        rw [hdv] at hn
        cases hn
  · rw [DiffSecrets]
    haveI : IsTotal SecretChange (fun a b => a.path ≤ b.path) :=
      ⟨fun a b => le_total a.path b.path⟩
    haveI : IsTrans SecretChange (fun a b => a.path ≤ b.path) :=
      ⟨fun a b c hab hbc => le_trans hab hbc⟩
    exact List.sorted_insertionSort _ _
  · rw [ComputeSummary]
    exact computeSummary_foldl_invariant _
      (fun r hr => diffSecrets_mem_types current desired r (hperm.subset hr))
      ⟨0, 0, 0, 0, 0⟩ (by simp)

/-- C6 witness: the spec applied to concrete one-entry maps. -/
theorem diffSecrets_spec_witness :
    ((([("a", GoValue.vnum 1)] : List (String × GoValue)).map Prod.fst).Nodup ∧
      (([("b", GoValue.vnum 2)] : List (String × GoValue)).map Prod.fst).Nodup) ∧
    ((ComputeSummary (DiffSecrets [("a", GoValue.vnum 1)] [("b", GoValue.vnum 2)])).added +
      (ComputeSummary (DiffSecrets [("a", GoValue.vnum 1)] [("b", GoValue.vnum 2)])).removed +
      (ComputeSummary (DiffSecrets [("a", GoValue.vnum 1)] [("b", GoValue.vnum 2)])).modified +
      (ComputeSummary (DiffSecrets [("a", GoValue.vnum 1)] [("b", GoValue.vnum 2)])).unchanged =
      (ComputeSummary (DiffSecrets [("a", GoValue.vnum 1)] [("b", GoValue.vnum 2)])).total) :=
  ⟨⟨by simp, by simp⟩,
    (diffSecrets_spec [("a", GoValue.vnum 1)] [("b", GoValue.vnum 2)]
      (by simp) (by simp)).2.2.2⟩

/-- Definition `Target` from the pipeline config (`account_id`, `imports`, `region`,
`secret_prefix`, `role_arn`). -/
structure Target where
  accountID : String := ""
  imports : List String := []
  region : String := ""
  secretPfx : String := ""
  roleARN : String := ""

/-- Definition `VaultSource` (a KV mount). -/
structure VaultSource where
  address : String := ""
  nspace : String := ""
  mount : String := ""
  paths : List String := []

/-- Definition `AWSSource` (a Secrets Manager scope); `pfx` models the `prefix`
field. -/
structure AWSSource where
  accountID : String := ""
  region : String := ""
  pfx : String := ""
  tags : List (String × String) := []

/-- Definition `Source`: exactly one of a Vault or an AWS variant, both optional
pointers in Go. -/
structure Source where
  vault : Option VaultSource := none
  aws : Option AWSSource := none

/-- Definition `MergeStoreVault`. -/
structure MergeStoreVault where
  mount : String := ""

/-- Definition `MergeStoreS3`; `pfx` models the `prefix` field. -/
structure MergeStoreS3 where
  bucket : String := ""
  pfx : String := ""
  kmsKeyID : String := ""

/-- Definition `MergeStoreConfig`: optional vault / s3 pointers. -/
structure MergeStoreConfig where
  vault : Option MergeStoreVault := none
  s3 : Option MergeStoreS3 := none

/-- Definition `ExecutionRoleConfig` of the Control Tower block. -/
structure ExecutionRoleConfig where
  name : String := ""
  path : String := ""

/-- Definition `ControlTowerConfig` (the `account_factory` block is irrelevant to the
claims and omitted). -/
structure ControlTowerConfig where
  enabled : Bool := false
  executionRole : ExecutionRoleConfig := {}

/-- Definition `ExecutionContextConfig`; `ctype` models the `type` field (a string
enum in Go). -/
structure ExecutionContextConfig where
  ctype : String := ""
  accountID : String := ""
  customRolePattern : String := ""

/-- Definition `AWSConfig` (organizations / identity-center blocks are irrelevant to
the claims and omitted). -/
structure AWSConfig where
  region : String := ""
  executionContext : ExecutionContextConfig := {}
  controlTower : ControlTowerConfig := {}

/-- Definition `VaultConfig` (auth block omitted — not consulted by the claims). -/
structure VaultConfig where
  address : String := ""
  nspace : String := ""

/-- Definition `IdentityCenterDiscovery`. -/
structure IdentityCenterDiscovery where
  group : String := ""
  permissionSet : String := ""

/-- Definition `OrganizationsDiscovery`. -/
structure OrganizationsDiscovery where
  ou : String := ""
  tags : List (String × String) := []
  recursive : Bool := false

/-- Definition `AccountsListDiscovery`. -/
structure AccountsListDiscovery where
  source : String := ""

/-- Definition `DiscoveryConfig`: three optional discoverer pointers. -/
structure DiscoveryConfig where
  identityCenter : Option IdentityCenterDiscovery := none
  organizations : Option OrganizationsDiscovery := none
  accountsList : Option AccountsListDiscovery := none

/-- Definition `DynamicTarget`. -/
structure DynamicTarget where
  discovery : DiscoveryConfig := {}
  imports : List String := []
  exclude : List String := []
  region : String := ""
  secretPfx : String := ""
  roleARN : String := ""

/-- Definition `Config`: Go's name-keyed maps (`sources`, `targets`,
`dynamic_targets`) are modelled as association lists with distinct keys. -/
structure Config where
  vault : VaultConfig := {}
  aws : AWSConfig := {}
  sources : List (String × Source) := []
  mergeStore : MergeStoreConfig := {}
  targets : List (String × Target) := []
  dynamicTargets : List (String × DynamicTarget) := []

/-- Definition `isValidAWSAccountID`: exactly 12 decimal digits.  Go checks the byte
length and then every rune; for an all-digit string bytes and runes
coincide, and a non-digit rune fails the rune check either way, so the
character-level check is equivalent. -/
def isValidAWSAccountID (accountID : String) : Bool :=
  accountID.length == 12 &&
    accountID.data.all (fun c => '0' ≤ c && c ≤ '9')

/-- The validation error kinds of `Config.Validate`, one per distinct
`fmt.Errorf` site. -/
inductive ValidateError where
  | vaultAddressRequired
  | mergeStoreRequired
  | s3BucketRequired
  | noTargets
  | accountIDRequired (name : String)
  | invalidAccountID (name accountID : String)
  | importNotFound (name imp : String)
  | discoveryRequired (name : String)
deriving DecidableEq, Repr

/-- The per-target body of the target loop in `Config.Validate`: `account_id`
must be present, well-formed, and every import must name a known source or
target. -/
def validateTarget (c : Config) (name : String) (t : Target) : Option ValidateError :=
  if t.accountID = "" then some (.accountIDRequired name)
  else if !isValidAWSAccountID t.accountID then
    some (.invalidAccountID name t.accountID)
  else t.imports.findSome? fun imp =>
    if (alookup c.sources imp).isNone && (alookup c.targets imp).isNone then
      some (.importNotFound name imp)
    else none

/-- The S3 merge-store field check of `Config.Validate`. -/
def validateMergeStoreS3 (c : Config) : Option ValidateError :=
  match c.mergeStore.s3 with
  | some s3 => if s3.bucket = "" then some .s3BucketRequired else none
  | none => none

/-- The target loop of `Config.Validate`. -/
def validateTargets (c : Config) : Option ValidateError :=
  c.targets.findSome? fun nt => validateTarget c nt.1 nt.2

/-- The dynamic-target loop of `Config.Validate`: each dynamic target must
carry at least one discoverer. -/
def validateDynamicTargets (c : Config) : Option ValidateError :=
  c.dynamicTargets.findSome? fun nd =>
    if nd.2.discovery.identityCenter.isNone && nd.2.discovery.organizations.isNone &&
        nd.2.discovery.accountsList.isNone then
      some (.discoveryRequired nd.1)
    else none

/-- Definition `Config.Validate` from the pipeline config: vault address, merge
store, S3 bucket, at-least-one-target, per-target and per-dynamic-target
checks, in source order.  Returns the first error, `none` on success. -/
def Config.Validate (c : Config) : Option ValidateError :=
  if c.vault.address = "" then some .vaultAddressRequired
  else if c.mergeStore.vault.isNone && c.mergeStore.s3.isNone then
    some .mergeStoreRequired
  else match validateMergeStoreS3 c with
  | some e => some e
  | none =>
    if c.targets.isEmpty && c.dynamicTargets.isEmpty then some .noTargets
    else match validateTargets c with
      | some e => some e
      | none => validateDynamicTargets c

/-- Go `strings.HasPrefix` (byte order and codepoint order coincide on
UTF-8, so the character-level check is faithful). -/
def goHasPrefix (s pre : String) : Bool :=
  pre.data.isPrefixOf s.data

/-- Go `strings.HasSuffix`. -/
def goHasSuffix (s suf : String) : Bool :=
  suf.data.isSuffixOf s.data

/-- The scan loop of Go `strings.ReplaceAll`: leftmost non-overlapping
occurrences of `old` are replaced by `new`.  `fuel` bounds the recursion;
`s.length` always suffices. -/
def replaceAllAux (old new : List Char) : Nat → List Char → List Char
  | _, [] => []
  | 0, s => s
  | fuel + 1, c :: rest =>
    if !old.isEmpty && old.isPrefixOf (c :: rest) then
      new ++ replaceAllAux old new fuel ((c :: rest).drop old.length)
    else
      c :: replaceAllAux old new fuel rest

/-- Go `strings.ReplaceAll` for a non-empty pattern (both call sites pass
the non-empty literal `\x7b\x7b.AccountID\x7d\x7d`; the empty-pattern
behaviour of Go is not needed and the model leaves `s` unchanged then). -/
def goReplaceAll (s old new : String) : String :=
  ⟨replaceAllAux old.data new.data s.data.length s.data⟩

/-- The explicit-role scan of `Config.GetRoleARN`: the first target whose
`account_id` matches and whose `role_arn` is nonempty (Go iterates the
target map in unspecified order; the list order makes this
deterministic). -/
def explicitTargetRoleARN (c : Config) (accountID : String) : Option String :=
  c.targets.findSome? fun nt =>
    if nt.2.accountID = accountID ∧ nt.2.roleARN ≠ "" then
      some nt.2.roleARN
    else none

/-- Definition `if name == "" then "AWSControlTowerExecution"`, shared verbatim by
both role-ARN resolvers. -/
def roleNameOrDefault (n : String) : String :=
  if n = "" then "AWSControlTowerExecution" else n

/-- The Control Tower path normalization as written in
`Config.GetRoleARN`: empty becomes `/`, otherwise a leading and a
trailing slash are forced. -/
def ctPathConfig (p : String) : String :=
  if p = "" then "/"
  else
    let p1 := if goHasPrefix p "/" = false then "/" ++ p else p
    if goHasSuffix p1 "/" = false then p1 ++ "/" else p1

/-- The Control Tower path normalization as written in
`AWSExecutionContext.GetRoleARN` (same intent, different check order). -/
def ctPathEc (p : String) : String :=
  let p1 := if p ≠ "" ∧ goHasPrefix p "/" = false then "/" ++ p else p
  let p2 := if p1 ≠ "" ∧ goHasSuffix p1 "/" = false then p1 ++ "/" else p1
  if p2 = "" then "/" else p2

/-- Definition `Config.GetRoleARN` from the pipeline config: first target with a
matching `account_id` and a nonempty `role_arn` wins; else the Control
Tower pattern when enabled (path forced to leading-and-trailing slash
form); else the `custom_role_pattern` with `\x7b\x7b.AccountID\x7d\x7d`
substituted; else the default `AWSControlTowerExecution` role. -/
def Config.GetRoleARN (c : Config) (accountID : String) : String :=
  match explicitTargetRoleARN c accountID with
  | some arn => arn
  | none =>
    if c.aws.controlTower.enabled then
      "arn:aws:iam::" ++ accountID ++ ":role" ++
        ctPathConfig c.aws.controlTower.executionRole.path ++
        roleNameOrDefault c.aws.controlTower.executionRole.name
    else if c.aws.executionContext.customRolePattern ≠ "" then
      goReplaceAll c.aws.executionContext.customRolePattern
        "\x7b\x7b.AccountID\x7d\x7d" accountID
    else
      "arn:aws:iam::" ++ accountID ++ ":role/AWSControlTowerExecution"

/-- The `CallerIdentity` part of the AWS execution context
(`sts.GetCallerIdentity` result). -/
structure CallerIdentity where
  accountID : String := ""
  arn : String := ""
  userID : String := ""

/-- Definition `AWSExecutionContext` (only the fields `GetRoleARN` consults). -/
structure AWSExecutionContext where
  callerIdentity : CallerIdentity := {}
  config : Config := {}

/-- Definition `AWSExecutionContext.GetRoleARN` from the execution context: empty for
the executing account itself; else the `custom_role_pattern`; else the
Control Tower pattern; else the default `OrganizationAccountAccessRole`. -/
def AWSExecutionContext.GetRoleARN (ec : AWSExecutionContext)
    (accountID : String) : String :=
  if accountID = ec.callerIdentity.accountID then ""
  else if ec.config.aws.executionContext.customRolePattern ≠ "" then
    goReplaceAll ec.config.aws.executionContext.customRolePattern
      "\x7b\x7b.AccountID\x7d\x7d" accountID
  else if ec.config.aws.controlTower.enabled then
    "arn:aws:iam::" ++ accountID ++ ":role" ++
      ctPathEc ec.config.aws.controlTower.executionRole.path ++
      roleNameOrDefault ec.config.aws.controlTower.executionRole.name
  else
    "arn:aws:iam::" ++ accountID ++ ":role/OrganizationAccountAccessRole"

theorem string_length_zero_eq_empty (s : String) (h : s.length = 0) : s = "" := by
  cases s with
  | mk data =>
    cases data with
    | nil => rfl
    | cons c cs => simp [String.length] at h

theorem string_append_ne_empty_left (s t : String) (hs : s ≠ "") : s ++ t ≠ "" := by
  intro h
  have hl := congrArg String.length h
  rw [String.length_append] at hl
  have h0 : String.length "" = 0 := rfl
  rw [h0] at hl
  exact hs (string_length_zero_eq_empty s (by omega))

theorem string_append_ne_empty_right (s t : String) (ht : t ≠ "") : s ++ t ≠ "" := by
  intro h
  have hl := congrArg String.length h
  rw [String.length_append] at hl
  have h0 : String.length "" = 0 := rfl
  rw [h0] at hl
  exact ht (string_length_zero_eq_empty t (by omega))

theorem ctPath_agree (p : String) : ctPathConfig p = ctPathEc p := by
  by_cases hp : p = ""
  · subst hp
    simp [ctPathConfig, ctPathEc]
  · have hslash : ("/" : String) ≠ "" := by decide
    rw [ctPathConfig, if_neg hp, ctPathEc]
    by_cases hpre : goHasPrefix p "/" = false
    · have hc1 : p ≠ "" ∧ goHasPrefix p "/" = false := ⟨hp, hpre⟩
      rw [if_pos hpre, if_pos hc1]
      have hne : ("/" ++ p) ≠ "" := string_append_ne_empty_left "/" p hslash
      by_cases hsuf : goHasSuffix ("/" ++ p) "/" = false
      · have hc2 : ("/" ++ p) ≠ "" ∧ goHasSuffix ("/" ++ p) "/" = false := ⟨hne, hsuf⟩
        rw [if_pos hsuf, if_pos hc2, if_neg (string_append_ne_empty_left _ _ hne)]
      · have hc2 : ¬(("/" ++ p) ≠ "" ∧ goHasSuffix ("/" ++ p) "/" = false) :=
          fun hcon => hsuf hcon.2
        rw [if_neg hsuf, if_neg hc2, if_neg hne]
    · have hc1 : ¬(p ≠ "" ∧ goHasPrefix p "/" = false) := fun hcon => hpre hcon.2
      rw [if_neg hpre, if_neg hc1]
      by_cases hsuf : goHasSuffix p "/" = false
      · have hc2 : p ≠ "" ∧ goHasSuffix p "/" = false := ⟨hp, hsuf⟩
        rw [if_pos hsuf, if_pos hc2, if_neg (string_append_ne_empty_left _ _ hp)]
      · have hc2 : ¬(p ≠ "" ∧ goHasSuffix p "/" = false) := fun hcon => hsuf hcon.2
        rw [if_neg hsuf, if_neg hc2, if_neg hp]

/-- A config that sets both a custom role pattern and Control Tower, with
no explicit per-target roles. -/
def cfgBothPatterns : Config :=
  { vault := { address := "http://vault:8200" },
    aws := { executionContext :=
               { customRolePattern :=
                   "arn:aws:iam::\x7b\x7b.AccountID\x7d\x7d:role/SecretsHub" },
             controlTower :=
               { enabled := true,
                 executionRole := { name := "AWSControlTowerExecution" } } } }

/-- An execution context whose config carries an explicit per-target role
ARN, no custom pattern and Control Tower disabled. -/
def ecExplicitRole : AWSExecutionContext :=
  { callerIdentity := { accountID := "222222222222" },
    config := { targets := [("Special",
      { accountID := "111111111111",
        roleARN := "arn:aws:iam::111111111111:role/SpecialRole" })] } }

/-- C1 counterexample.  The claim puts `custom_role_pattern` before the
Control Tower pattern, but `Config.GetRoleARN` checks Control Tower
first: with both configured it returns the Control Tower ARN, not the
substituted custom pattern.  And the claim says an explicit target
`role_arn` always wins, but `AWSExecutionContext.GetRoleARN` never
consults target roles: it falls through to the
`OrganizationAccountAccessRole` default. -/
theorem roleARN_claim_counterexample :
    Config.GetRoleARN cfgBothPatterns "111111111111" =
      "arn:aws:iam::111111111111:role/AWSControlTowerExecution" ∧
    Config.GetRoleARN cfgBothPatterns "111111111111" ≠
      "arn:aws:iam::111111111111:role/SecretsHub" ∧
    AWSExecutionContext.GetRoleARN ecExplicitRole "111111111111" =
      "arn:aws:iam::111111111111:role/OrganizationAccountAccessRole" ∧
    AWSExecutionContext.GetRoleARN ecExplicitRole "111111111111" ≠
      "arn:aws:iam::111111111111:role/SpecialRole" :=
  ⟨by decide, by decide, by decide, by decide⟩

/-- C1 amended: `Config.GetRoleARN` resolves, in order: explicit target
`role_arn` for the account; else the Control Tower pattern (with
slash-normalized path) when enabled; else `custom_role_pattern` with
`\x7b\x7b.AccountID\x7d\x7d` substituted; else
`arn:aws:iam::<A>:role/AWSControlTowerExecution` — it has no same-account
case.  `AWSExecutionContext.GetRoleARN` resolves: empty string for the
executing account; else `custom_role_pattern`; else the Control Tower
pattern; else `arn:aws:iam::<A>:role/OrganizationAccountAccessRole` — it
never consults per-target roles.  Both Control Tower branches normalize
the role path identically. -/
theorem roleARN_resolution_amended (c : Config) (ec : AWSExecutionContext)
    (A : String) :
    (∀ arn, explicitTargetRoleARN c A = some arn →
      Config.GetRoleARN c A = arn) ∧
    (explicitTargetRoleARN c A = none → c.aws.controlTower.enabled = true →
      Config.GetRoleARN c A = "arn:aws:iam::" ++ A ++ ":role" ++
        ctPathConfig c.aws.controlTower.executionRole.path ++
        roleNameOrDefault c.aws.controlTower.executionRole.name) ∧
    (explicitTargetRoleARN c A = none → c.aws.controlTower.enabled = false →
      c.aws.executionContext.customRolePattern ≠ "" →
      Config.GetRoleARN c A =
        goReplaceAll c.aws.executionContext.customRolePattern
          "\x7b\x7b.AccountID\x7d\x7d" A) ∧
    (explicitTargetRoleARN c A = none → c.aws.controlTower.enabled = false →
      c.aws.executionContext.customRolePattern = "" →
      Config.GetRoleARN c A =
        "arn:aws:iam::" ++ A ++ ":role/AWSControlTowerExecution") ∧
    (A = ec.callerIdentity.accountID →
      AWSExecutionContext.GetRoleARN ec A = "") ∧
    (A ≠ ec.callerIdentity.accountID →
      ec.config.aws.executionContext.customRolePattern ≠ "" →
      AWSExecutionContext.GetRoleARN ec A =
        goReplaceAll ec.config.aws.executionContext.customRolePattern
          "\x7b\x7b.AccountID\x7d\x7d" A) ∧
    (A ≠ ec.callerIdentity.accountID →
      ec.config.aws.executionContext.customRolePattern = "" →
      ec.config.aws.controlTower.enabled = true →
      AWSExecutionContext.GetRoleARN ec A = "arn:aws:iam::" ++ A ++ ":role" ++
        ctPathConfig ec.config.aws.controlTower.executionRole.path ++
        roleNameOrDefault ec.config.aws.controlTower.executionRole.name) ∧
    (A ≠ ec.callerIdentity.accountID →
      ec.config.aws.executionContext.customRolePattern = "" →
      ec.config.aws.controlTower.enabled = false →
      AWSExecutionContext.GetRoleARN ec A =
        "arn:aws:iam::" ++ A ++ ":role/OrganizationAccountAccessRole") := by
  refine ⟨?_, ?_, ?_, ?_, ?_, ?_, ?_, ?_⟩
  · intro arn h
    rw [Config.GetRoleARN, h]
  · intro h hen
    rw [Config.GetRoleARN, h]
    simp [hen]
  · intro h hen hpat
    rw [Config.GetRoleARN, h]
    simp [hen, hpat]
  · intro h hen hpat
    rw [Config.GetRoleARN, h]
    simp [hen, hpat]
  · intro h
    rw [AWSExecutionContext.GetRoleARN, if_pos h]
  · intro h hpat
    rw [AWSExecutionContext.GetRoleARN, if_neg h]
    simp [hpat]
  · intro h hpat hen
    rw [AWSExecutionContext.GetRoleARN, if_neg h]
    simp [hpat, hen, ctPath_agree]
  · intro h hpat hen
    rw [AWSExecutionContext.GetRoleARN, if_neg h]
    simp [hpat, hen]

/-- C1 witness: the amended resolution evaluated at concrete inputs —
an explicit target role wins in `Config.GetRoleARN`, and the execution
context returns the empty string for its own account. -/
theorem roleARN_resolution_amended_witness :
    Config.GetRoleARN
      { targets := [("Special",
          { accountID := "111111111111", roleARN := "arn:special" })] }
      "111111111111" = "arn:special" ∧
    AWSExecutionContext.GetRoleARN
      { callerIdentity := { accountID := "999999999999" } }
      "999999999999" = "" := by
  constructor
  · exact (roleARN_resolution_amended
      { targets := [("Special",
          { accountID := "111111111111", roleARN := "arn:special" })] }
      {} "111111111111").1 "arn:special" (by decide)
  · exact (roleARN_resolution_amended {}
      { callerIdentity := { accountID := "999999999999" } }
      "999999999999").2.2.2.2.1 rfl

/-- A config with a vault address, one import-free target and no merge
store. -/
def cfgNoMergeStore : Config :=
  { vault := { address := "http://vault:8200" },
    targets := [("T", { accountID := "111111111111" })] }

/-- C8 counterexample: the claim says a config with no merge store and no
target imports passes the merge-store check, but `Config.Validate`
requires a merge store unconditionally — this import-free config is
rejected with the merge-store error. -/
theorem mergeStore_claim_counterexample :
    cfgNoMergeStore.targets.all (fun nt => nt.2.imports.isEmpty) = true ∧
    cfgNoMergeStore.mergeStore.vault = none ∧
    cfgNoMergeStore.mergeStore.s3 = none ∧
    Config.Validate cfgNoMergeStore = some ValidateError.mergeStoreRequired :=
  ⟨by decide, rfl, rfl, by decide⟩

/-- C8 amended: validation requires a merge store unconditionally —
whenever both merge-store variants are absent (and the vault address is
present so the earlier check passes), `Validate` returns the merge-store
error regardless of whether any target has imports. -/
theorem mergeStore_required_unconditionally (c : Config)
    (haddr : c.vault.address ≠ "")
    (hv : c.mergeStore.vault = none) (hs : c.mergeStore.s3 = none) :
    Config.Validate c = some ValidateError.mergeStoreRequired := by
  rw [Config.Validate, if_neg haddr]
  have hcond : (c.mergeStore.vault.isNone && c.mergeStore.s3.isNone) = true := by
    rw [hv, hs]
    rfl
  rw [if_pos hcond]

/-- C8 witness: a concrete config with imports but no merge store is
rejected with the merge-store error. -/
theorem mergeStore_required_unconditionally_witness :
    Config.Validate
      { vault := { address := "http://v" },
        targets := [("T", { imports := ["X"] })] } =
      some ValidateError.mergeStoreRequired :=
  mergeStore_required_unconditionally _ (by decide) rfl rfl

/-- The two YAML shapes `Target.UnmarshalYAML` accepts: a bare sequence
of names, or the full mapping form. -/
inductive TargetYaml where
  | seq (imports : List String)
  | full (t : Target)

/-- Definition `Target.UnmarshalYAML`: a bare sequence becomes the `imports` of an
otherwise zero-valued `Target`; the mapping form fills all fields. -/
def unmarshalTarget : TargetYaml → Target
  | .seq shorthand => { imports := shorthand }
  | .full t => t

theorem validateTarget_shorthand (c : Config) (name : String)
    (seq : List String) :
    validateTarget c name (unmarshalTarget (.seq seq)) =
      some (.accountIDRequired name) := by
  rw [unmarshalTarget, validateTarget, if_pos rfl]

/-- C9: a bare-sequence YAML target unmarshals to a `Target` whose imports
equal the sequence and whose `account_id`, `region`,
`secret_prefix` and `role_arn` are all empty; validating that target
yields the account_id-required error, and no config containing it ever
validates. -/
theorem shorthandTarget_spec :
    (∀ seq : List String, unmarshalTarget (.seq seq) =
      { accountID := "", imports := seq, region := "", secretPfx := "",
        roleARN := "" }) ∧
    (∀ (c : Config) (name : String) (seq : List String),
      validateTarget c name (unmarshalTarget (.seq seq)) =
        some (.accountIDRequired name)) ∧
    (∀ (c : Config) (name : String) (seq : List String),
      (name, unmarshalTarget (.seq seq)) ∈ c.targets →
      Config.Validate c ≠ none) := by
  refine ⟨fun seq => rfl, fun c name seq => validateTarget_shorthand c name seq, ?_⟩
  intro c name seq hmem hnone
  rw [Config.Validate] at hnone
  by_cases h1 : c.vault.address = ""
  · rw [if_pos h1] at hnone
    cases hnone
  · rw [if_neg h1] at hnone
    by_cases h2 : (c.mergeStore.vault.isNone && c.mergeStore.s3.isNone) = true
    · rw [if_pos h2] at hnone
      cases hnone
    · rw [if_neg h2] at hnone
      cases h3 : validateMergeStoreS3 c with
      | some e =>
        rw [h3] at hnone
        cases hnone
      | none =>
        rw [h3] at hnone
        by_cases h4 : (c.targets.isEmpty && c.dynamicTargets.isEmpty) = true
        · rw [if_pos h4] at hnone
          cases hnone
        · rw [if_neg h4] at hnone
          cases h5 : validateTargets c with
          | some e =>
            rw [h5] at hnone
            cases hnone
          | none =>
            rw [validateTargets] at h5
            have h6 := List.findSome?_eq_none_iff.mp h5
              (name, unmarshalTarget (.seq seq)) hmem
            simp only at h6
            rw [validateTarget_shorthand c name seq] at h6
            cases h6

/-- C9 witness: the literal scenario — `Serverless_Prod:
[Serverless_Stg]` parses to an imports-only target, and a config holding
it fails validation. -/
theorem shorthandTarget_spec_witness :
    unmarshalTarget (.seq ["Serverless_Stg"]) =
      { accountID := "", imports := ["Serverless_Stg"], region := "",
        secretPfx := "", roleARN := "" } ∧
    Config.Validate
      { vault := { address := "http://v" },
        mergeStore := { vault := some { mount := "merge" } },
        targets := [("Serverless_Prod",
          unmarshalTarget (.seq ["Serverless_Stg"]))] } ≠ none := by
  constructor
  · exact shorthandTarget_spec.1 ["Serverless_Stg"]
  · exact shorthandTarget_spec.2.2 _ "Serverless_Prod" ["Serverless_Stg"]
      (by simp)

/-- Definition `NodeType` from `pkg/pipeline/graph.go`. -/
inductive NodeType where
  | source
  | target
deriving DecidableEq, Repr

/-- Definition `Node` from `pkg/pipeline/graph.go` (the `DependedBy` back-edges are
never consulted by level computation, topological order or the claims,
and are omitted). -/
structure GNode where
  ntype : NodeType
  level : Int := 0
  deps : List String := []
deriving DecidableEq, Repr

/-- Definition `Graph`: the node map, as an association list with distinct keys. -/
structure Graph where
  nodes : List (String × GNode)
deriving DecidableEq, Repr

/-- The error cases of `BuildGraph` / `calculateLevels`, one constructor
per `fmt.Errorf` site, plus explicit fuel exhaustion for the embedded
recursion (unreachable with fuel `nodes.length + 1`, proved below). -/
inductive GraphError where
  | unknownImport (name imp : String)
  | circularDependency (name : String)
  | nodeNotFound (name : String)
  | fuelExhausted
deriving DecidableEq, Repr

/-- The node-construction prefix of `BuildGraph`: every source becomes a
level-0 source node, then every target a target node (later insertions
overwrite, so a target wins a name collision exactly as in the Go map),
with `Deps` equal to its imports — the edge loop appends exactly the import
list when every import resolves, and its unknown-import error is
modelled separately by `importError`. -/
def buildNodeList (cfg : Config) : List (String × GNode) :=
  let withSources := cfg.sources.foldl
    (fun acc ns => setKey acc ns.1 ⟨NodeType.source, 0, []⟩) []
  cfg.targets.foldl
    (fun acc nt => setKey acc nt.1 ⟨NodeType.target, 0, nt.2.imports⟩) withSources

/-- The unknown-import error raised by the edge loop of `BuildGraph`: the first import
of any target that is bound to no node. -/
def importError (cfg : Config) (nodes : List (String × GNode)) :
    Option GraphError :=
  cfg.targets.findSome? fun nt => nt.2.imports.findSome? fun imp =>
    if (alookup nodes imp).isNone then some (.unknownImport nt.1 imp) else none

/-- The mutable state of `calculateLevels`: `levels` merges Go's
`visited` map with the `node.Level` fields (a name is visited iff it has
a recorded level), and `stack` is the set of names with
`inStack = true` — always the current recursion path, most recent
first. -/
structure LevelState where
  levels : List (String × Int)
  stack : List String

/-- The `for _, dep := range node.Deps` loop of `calcLevel`, threading
the running maximum; `rec` is the recursive level computation at the
next fuel. -/
def calcDepsWith
    (rec : String → LevelState → Except GraphError (Int × LevelState)) :
    List String → LevelState → Int → Except GraphError (Int × LevelState)
  | [], st, maxDep => .ok (maxDep, st)
  | dep :: rest, st, maxDep =>
    match rec dep st with
    | .error e => .error e
    | .ok (depLevel, st') =>
      calcDepsWith rec rest st'
        (if depLevel > maxDep then depLevel else maxDep)

/-- Definition `calcLevel` from `Graph.calculateLevels`: error on a missing node or
a name already on the recursion stack (cycle); memoized return for
visited names; level 0 for sources; otherwise one plus the maximum
dependency level.  The Go closure recurses unboundedly; the embedding
spends one unit of fuel per nested call. -/
def calcLevel (nodes : List (String × GNode)) :
    Nat → String → LevelState → Except GraphError (Int × LevelState)
  | 0, _, _ => .error .fuelExhausted
  | fuel' + 1, name, st =>
    match alookup nodes name with
    | none => .error (.nodeNotFound name)
    | some node =>
      if name ∈ st.stack then .error (.circularDependency name)
      else
        match alookup st.levels name with
        | some lv => .ok (lv, st)
        | none =>
          if node.ntype = NodeType.source then
            .ok (0, ⟨setKey st.levels name 0, st.stack⟩)
          else
            match calcDepsWith (fun d s => calcLevel nodes fuel' d s)
                node.deps ⟨st.levels, name :: st.stack⟩ (-1) with
            | .error e => .error e
            | .ok (maxDep, st') =>
              .ok (maxDep + 1, ⟨setKey st'.levels name (maxDep + 1), st.stack⟩)

/-- The dependency loop at a given fuel. -/
def calcDeps (nodes : List (String × GNode)) (fuel : Nat) (deps : List String)
    (st : LevelState) (maxDep : Int) : Except GraphError (Int × LevelState) :=
  calcDepsWith (fun d s => calcLevel nodes fuel d s) deps st maxDep

/-- The `for name := range g.Nodes` loop of `calculateLevels`, memo state
threaded across iterations. -/
def calcAll (nodes : List (String × GNode)) :
    List (String × GNode) → LevelState → Except GraphError LevelState
  | [], st => .ok st
  | nt :: rest, st =>
    match calcLevel nodes (nodes.length + 1) nt.1 st with
    | .error e => .error e
    | .ok (_, st') => calcAll nodes rest st'

/-- Definition `BuildGraph` from `pkg/pipeline/graph.go`: build the node map, fail
on the first unknown import, then compute levels (failing on a cycle)
and return the graph with every node's `Level` field filled in. -/
def BuildGraph (cfg : Config) : Except GraphError Graph :=
  let nodes := buildNodeList cfg
  match importError cfg nodes with
  | some e => .error e
  | none =>
    match calcAll nodes nodes ⟨[], []⟩ with
    | .error e => .error e
    | .ok st =>
      .ok ⟨nodes.map fun nt =>
        (nt.1, { nt.2 with level := (alookup st.levels nt.1).getD 0 })⟩

/-- Definition `g.Nodes[name].Level` (0 when absent — in the Go code the name is
always present where this is used). -/
def Graph.levelOf (g : Graph) (n : String) : Int :=
  ((alookup g.nodes n).map (·.level)).getD 0

/-- The `sort.Slice` comparator of `TopologicalOrder`, as a (total,
transitive) ordering: by level, ties broken by name. -/
def topoLe (g : Graph) (a b : String) : Prop :=
  g.levelOf a < g.levelOf b ∨ (g.levelOf a = g.levelOf b ∧ a ≤ b)

instance (g : Graph) : DecidableRel (topoLe g) := fun a b => by
  unfold topoLe
  infer_instance

/-- Definition `Graph.TopologicalOrder`: all target names, sorted by
`(level, name)`. -/
def Graph.TopologicalOrder (g : Graph) : List String :=
  List.insertionSort (topoLe g)
    (g.nodes.filterMap fun nt =>
      if nt.2.ntype = NodeType.target then some nt.1 else none)

/-- The dependency edge of the built graph: `a` depends on `b`. -/
def nodeEdge (nodes : List (String × GNode)) (a b : String) : Prop :=
  ∃ node, alookup nodes a = some node ∧ b ∈ node.deps

/-- The invariant tying Go's `inStack` map to the recursion: the stack is
a path of dependency edges, most recent first. -/
def stackChain (nodes : List (String × GNode)) : List String → Prop
  | [] => True
  | [_] => True
  | a :: b :: rest => nodeEdge nodes b a ∧ stackChain nodes (b :: rest)

/-- Every dependency of every node is itself a node (holds for the node
list `BuildGraph` constructs once the unknown-import check passed). -/
def ClosedNodes (nodes : List (String × GNode)) : Prop :=
  ∀ n node, alookup nodes n = some node →
    ∀ d ∈ node.deps, (alookup nodes d).isSome = true

/-- Sources are leaves (true of the constructed node list). -/
def SourcesLeafless (nodes : List (String × GNode)) : Prop :=
  ∀ n node, alookup nodes n = some node → node.ntype = NodeType.source →
    node.deps = []

/-- The running maximum of the dependency loop in `calcLevel`, read off a
levels map. -/
def maxDeps (levels : List (String × Int)) (deps : List String)
    (init : Int) : Int :=
  deps.foldl
    (fun m d =>
      if (alookup levels d).getD 0 > m then (alookup levels d).getD 0 else m)
    init

/-- Extension order on levels maps: every recorded level persists. -/
def LvExt (l l' : List (String × Int)) : Prop :=
  ∀ n lv, alookup l n = some lv → alookup l' n = some lv

/-- The partial-correctness invariant of the memo table: every recorded
level is non-negative, sources are 0, and a target's level is one plus
the running maximum over its (all recorded) dependencies. -/
def StateInv (nodes : List (String × GNode))
    (levels : List (String × Int)) : Prop :=
  ∀ name node lv, alookup nodes name = some node →
    alookup levels name = some lv →
    0 ≤ lv ∧
    (node.ntype = NodeType.source → lv = 0) ∧
    (node.ntype = NodeType.target →
      (∀ d ∈ node.deps, (alookup levels d).isSome = true) ∧
      lv = maxDeps levels node.deps (-1) + 1)

/-- Every import of every target resolves to a known source or target
(the hypothesis of C2). -/
def importsResolve (cfg : Config) : Prop :=
  ∀ nt ∈ cfg.targets, ∀ imp ∈ nt.2.imports,
    (alookup cfg.sources imp).isSome = true ∨
    (alookup cfg.targets imp).isSome = true

/-- The import relation of the configuration: `a` imports `b`. -/
def cfgEdge (cfg : Config) (a b : String) : Prop :=
  ∃ t, alookup cfg.targets a = some t ∧ b ∈ t.imports

/-- A cycle in the import relation. -/
def hasCycle (cfg : Config) : Prop :=
  ∃ n, Relation.TransGen (cfgEdge cfg) n n

theorem LvExt.refl {l : List (String × Int)} : LvExt l l := fun _ _ h => h

theorem LvExt.trans {a b c : List (String × Int)} (h1 : LvExt a b)
    (h2 : LvExt b c) : LvExt a c := fun n lv h => h2 n lv (h1 n lv h)

theorem LvExt.setKey_fresh {l : List (String × Int)} {n : String} {v : Int}
    (hfresh : alookup l n = none) : LvExt l (setKey l n v) := by
  intro m lv h
  by_cases hm : m = n
  · subst hm
    rw [hfresh] at h
    cases h
  · rw [alookup_setKey_other l m n v (fun he => hm he.symm)]
    exact h

theorem mem_keys_of_alookup_some {α : Type} (m : List (String × α))
    (k : String) (v : α) (h : alookup m k = some v) : k ∈ m.map Prod.fst := by
  induction m with
  | nil => cases h
  | cons hd rest ih =>
    obtain ⟨k', v'⟩ := hd
    rw [alookup] at h
    by_cases hk : k' = k
    · subst hk
      simp
    · rw [if_neg hk] at h
      simp only [List.map_cons, List.mem_cons]
      exact Or.inr (ih h)

theorem mem_of_alookup_some {α : Type} (m : List (String × α))
    (k : String) (v : α) (h : alookup m k = some v) : (k, v) ∈ m := by
  induction m with
  | nil => cases h
  | cons hd rest ih =>
    obtain ⟨k', v'⟩ := hd
    rw [alookup] at h
    by_cases hk : k' = k
    · subst hk
      rw [if_pos rfl] at h
      injection h with h
      subst h
      exact List.mem_cons_self _ _
    · rw [if_neg hk] at h
      exact List.mem_cons_of_mem _ (ih h)

theorem maxDeps_ge_init (levels : List (String × Int)) (deps : List String) :
    ∀ init : Int, init ≤ maxDeps levels deps init := by
  induction deps with
  | nil => intro init; exact le_refl _
  | cons d rest ih =>
    intro init
    rw [maxDeps, List.foldl_cons]
    refine le_trans ?_ (ih _)
    by_cases h : (alookup levels d).getD 0 > init
    · rw [if_pos h]
      omega
    · rw [if_neg h]

theorem maxDeps_ge_mem (levels : List (String × Int)) (deps : List String)
    (d : String) (hd : d ∈ deps) :
    ∀ init : Int, (alookup levels d).getD 0 ≤ maxDeps levels deps init := by
  induction deps with
  | nil => cases hd
  | cons d0 rest ih =>
    intro init
    rw [maxDeps, List.foldl_cons]
    rcases List.mem_cons.mp hd with h | h
    · subst h
      refine le_trans ?_ (maxDeps_ge_init levels rest _)
      by_cases hgt : (alookup levels d).getD 0 > init
      · rw [if_pos hgt]
      · rw [if_neg hgt]
        omega
    · exact ih h _

theorem maxDeps_achieved (levels : List (String × Int)) (deps : List String) :
    ∀ init : Int, maxDeps levels deps init = init ∨
      ∃ d ∈ deps, maxDeps levels deps init = (alookup levels d).getD 0 := by
  induction deps with
  | nil => intro init; exact Or.inl rfl
  | cons d0 rest ih =>
    intro init
    rw [maxDeps, List.foldl_cons]
    by_cases h : (alookup levels d0).getD 0 > init
    · rw [if_pos h]
      rcases ih ((alookup levels d0).getD 0) with h' | ⟨d, hd, h'⟩
      · exact Or.inr ⟨d0, List.mem_cons_self _ _, h'⟩
      · exact Or.inr ⟨d, List.mem_cons_of_mem _ hd, h'⟩
    · rw [if_neg h]
      rcases ih init with h' | ⟨d, hd, h'⟩
      · exact Or.inl h'
      · exact Or.inr ⟨d, List.mem_cons_of_mem _ hd, h'⟩

theorem maxDeps_ext (levels levels' : List (String × Int)) (deps : List String)
    (hsome : ∀ d ∈ deps, (alookup levels d).isSome = true)
    (hext : LvExt levels levels') :
    ∀ init : Int, maxDeps levels deps init = maxDeps levels' deps init := by
  induction deps with
  | nil => intro init; rfl
  | cons d rest ih =>
    intro init
    rw [maxDeps, maxDeps, List.foldl_cons, List.foldl_cons]
    have hd := hsome d (List.mem_cons_self _ _)
    rcases Option.isSome_iff_exists.mp hd with ⟨lv, hlv⟩
    have hlv' := hext d lv hlv
    rw [hlv, hlv']
    exact ih (fun x hx => hsome x (List.mem_cons_of_mem _ hx)) _

theorem stateInv_insert_source (nodes : List (String × GNode))
    (levels : List (String × Int)) (name : String) (node : GNode)
    (hinv : StateInv nodes levels) (hnode : alookup nodes name = some node)
    (hsrc : node.ntype = NodeType.source) (hfresh : alookup levels name = none) :
    StateInv nodes (setKey levels name 0) := by
  have hext : LvExt levels (setKey levels name 0) := LvExt.setKey_fresh hfresh
  intro m mnode mlv hm hml
  by_cases hmn : m = name
  · subst hmn
    rw [hnode] at hm
    injection hm with hm
    subst hm
    rw [alookup_setKey_self] at hml
    injection hml with hml
    subst hml
    refine ⟨le_refl 0, fun _ => rfl, fun htar => ?_⟩
    rw [hsrc] at htar
    cases htar
  · rw [alookup_setKey_other _ _ _ _ (fun he => hmn he.symm)] at hml
    obtain ⟨h0, hsrcc, htarc⟩ := hinv m mnode mlv hm hml
    refine ⟨h0, hsrcc, fun htar => ?_⟩
    obtain ⟨hdeps, heq⟩ := htarc htar
    constructor
    · intro d hd
      rcases Option.isSome_iff_exists.mp (hdeps d hd) with ⟨ld, hld⟩
      rw [hext d ld hld]
      rfl
    · rw [heq, maxDeps_ext levels (setKey levels name 0) mnode.deps hdeps hext]

theorem stateInv_insert_target (nodes : List (String × GNode))
    (levels : List (String × Int)) (name : String) (node : GNode) (lv : Int)
    (hinv : StateInv nodes levels) (hnode : alookup nodes name = some node)
    (htar : node.ntype = NodeType.target) (hfresh : alookup levels name = none)
    (hdeps : ∀ d ∈ node.deps, (alookup levels d).isSome = true)
    (hlv : lv = maxDeps levels node.deps (-1) + 1) :
    StateInv nodes (setKey levels name lv) := by
  have hext : LvExt levels (setKey levels name lv) := LvExt.setKey_fresh hfresh
  intro m mnode mlv hm hml
  by_cases hmn : m = name
  · subst hmn
    rw [hnode] at hm
    injection hm with hm
    subst hm
    rw [alookup_setKey_self] at hml
    injection hml with hml
    subst hml
    refine ⟨?_, fun hsrc => ?_, fun _ => ⟨?_, ?_⟩⟩
    · have := maxDeps_ge_init levels node.deps (-1)
      omega
    · rw [htar] at hsrc
      cases hsrc
    · intro d hd
      rcases Option.isSome_iff_exists.mp (hdeps d hd) with ⟨ld, hld⟩
      rw [hext d ld hld]
      rfl
    · have hmx := maxDeps_ext levels _ node.deps hdeps hext (-1)
      omega
  · rw [alookup_setKey_other _ _ _ _ (fun he => hmn he.symm)] at hml
    obtain ⟨h0, hsrcc, htarc⟩ := hinv m mnode mlv hm hml
    refine ⟨h0, hsrcc, fun htarm => ?_⟩
    obtain ⟨hdepsm, heqm⟩ := htarc htarm
    constructor
    · intro d hd
      rcases Option.isSome_iff_exists.mp (hdepsm d hd) with ⟨ld, hld⟩
      rw [hext d ld hld]
      rfl
    · rw [heqm, maxDeps_ext levels (setKey levels name lv) mnode.deps hdepsm hext]

theorem stackChain_transGen (nodes : List (String × GNode)) :
    ∀ (stack : List String) (hd : String) (rest : List String) (a : String),
      stackChain nodes stack → stack = hd :: rest → a ∈ stack →
      a = hd ∨ Relation.TransGen (nodeEdge nodes) a hd := by
  intro stack
  induction stack with
  | nil => intro hd rest a _ he; cases he
  | cons x xs ih =>
    intro hd rest a hchain he hmem
    injection he with he1 he2
    subst he1
    subst he2
    rcases List.mem_cons.mp hmem with h | h
    · exact Or.inl h
    · cases xs with
      | nil => cases h
      | cons b rest' =>
        simp only [stackChain] at hchain
        obtain ⟨hedge, hchain'⟩ := hchain
        rcases ih b rest' a hchain' rfl h with h' | h'
        · exact Or.inr (Relation.TransGen.single (h' ▸ hedge))
        · exact Or.inr (h'.tail hedge)

theorem stack_length_le (nodes : List (String × GNode)) (stack : List String)
    (hnd : stack.Nodup) (hsub : ∀ s ∈ stack, (alookup nodes s).isSome = true)
    (hkeys : (nodes.map Prod.fst).Nodup) : stack.length ≤ nodes.length := by
  have hsub' : stack ⊆ nodes.map Prod.fst := by
    intro s hs
    rcases Option.isSome_iff_exists.mp (hsub s hs) with ⟨v, hv⟩
    exact mem_keys_of_alookup_some nodes s v hv
  have h := (List.subperm_of_subset hnd hsub').length_le
  rw [List.length_map] at h
  exact h

theorem calcLevel_succ (nodes : List (String × GNode)) (f : Nat) (name : String)
    (st : LevelState) :
    calcLevel nodes (f + 1) name st =
      match alookup nodes name with
      | none => .error (.nodeNotFound name)
      | some node =>
        if name ∈ st.stack then .error (.circularDependency name)
        else
          match alookup st.levels name with
          | some lv => .ok (lv, st)
          | none =>
            if node.ntype = NodeType.source then
              .ok (0, ⟨setKey st.levels name 0, st.stack⟩)
            else
              match calcDeps nodes f node.deps ⟨st.levels, name :: st.stack⟩ (-1) with
              | .error e => .error e
              | .ok (maxDep, st') =>
                .ok (maxDep + 1, ⟨setKey st'.levels name (maxDep + 1), st.stack⟩) :=
  rfl

theorem calcDeps_nil (nodes : List (String × GNode)) (fuel : Nat)
    (st : LevelState) (maxd : Int) :
    calcDeps nodes fuel [] st maxd = .ok (maxd, st) := rfl

theorem calcDeps_cons (nodes : List (String × GNode)) (fuel : Nat) (d : String)
    (rest : List String) (st : LevelState) (maxd : Int) :
    calcDeps nodes fuel (d :: rest) st maxd =
      match calcLevel nodes fuel d st with
      | .error e => .error e
      | .ok (depLevel, st') =>
        calcDeps nodes fuel rest st'
          (if depLevel > maxd then depLevel else maxd) := rfl

theorem maxDeps_cons (levels : List (String × Int)) (d : String)
    (rest : List String) (init : Int) :
    maxDeps levels (d :: rest) init =
      maxDeps levels rest
        (if (alookup levels d).getD 0 > init then (alookup levels d).getD 0
         else init) := by
  rw [maxDeps, maxDeps, List.foldl_cons]

/-- Total correctness of `calcLevel` at a given fuel: under the stack and
memo invariants it either succeeds, extending the memo soundly, or fails
with the cycle error — and then the graph really has a cycle. -/
def CalcLevelOK (nodes : List (String × GNode)) (fuel : Nat) : Prop :=
  ∀ name st,
    (alookup nodes name).isSome = true →
    StateInv nodes st.levels →
    st.stack.Nodup →
    (∀ s ∈ st.stack, (alookup nodes s).isSome = true) →
    (∀ s ∈ st.stack, alookup st.levels s = none) →
    stackChain nodes (name :: st.stack) →
    nodes.length + 1 ≤ fuel + st.stack.length →
    (∃ lv st', calcLevel nodes fuel name st = .ok (lv, st') ∧
      st'.stack = st.stack ∧ LvExt st.levels st'.levels ∧
      StateInv nodes st'.levels ∧
      (∀ s ∈ st.stack, alookup st'.levels s = none) ∧
      alookup st'.levels name = some lv) ∨
    (∃ m, calcLevel nodes fuel name st = .error (.circularDependency m) ∧
      ∃ n, Relation.TransGen (nodeEdge nodes) n n)

/-- The corresponding property of the dependency loop. -/
def CalcDepsOK (nodes : List (String × GNode)) (fuel : Nat) : Prop :=
  ∀ deps st maxd cur rest0,
    st.stack = cur :: rest0 →
    (∀ d ∈ deps, nodeEdge nodes cur d) →
    (∀ d ∈ deps, (alookup nodes d).isSome = true) →
    StateInv nodes st.levels →
    st.stack.Nodup →
    (∀ s ∈ st.stack, (alookup nodes s).isSome = true) →
    (∀ s ∈ st.stack, alookup st.levels s = none) →
    stackChain nodes st.stack →
    nodes.length + 1 ≤ fuel + st.stack.length →
    (∃ m st', calcDeps nodes fuel deps st maxd = .ok (m, st') ∧
      st'.stack = st.stack ∧ LvExt st.levels st'.levels ∧
      StateInv nodes st'.levels ∧
      (∀ s ∈ st.stack, alookup st'.levels s = none) ∧
      (∀ d ∈ deps, (alookup st'.levels d).isSome = true) ∧
      m = maxDeps st'.levels deps maxd) ∨
    (∃ m, calcDeps nodes fuel deps st maxd = .error (.circularDependency m) ∧
      ∃ n, Relation.TransGen (nodeEdge nodes) n n)

theorem calc_sound (nodes : List (String × GNode))
    (hkeys : (nodes.map Prod.fst).Nodup) (hclosed : ClosedNodes nodes) :
    ∀ fuel, CalcLevelOK nodes fuel ∧ CalcDepsOK nodes fuel := by
  intro fuel
  induction fuel using Nat.strong_induction_on with
  | _ fuel ih =>
    have hlevel : CalcLevelOK nodes fuel := by
      intro name st ha hinv hnd hsome hnone hchain hfuel
      cases fuel with
      | zero =>
        exfalso
        have hb := stack_length_le nodes st.stack hnd hsome hkeys
        omega
      | succ f =>
        rcases Option.isSome_iff_exists.mp ha with ⟨node, hnode⟩
        by_cases hstk : name ∈ st.stack
        · right
          refine ⟨name, ?_, ?_⟩
          · rw [calcLevel_succ]
            simp only [hnode]
            rw [if_pos hstk]
          · cases hstse : st.stack with
            | nil =>
              rw [hstse] at hstk
              cases hstk
            | cons hd rest =>
              rw [hstse] at hchain hstk
              simp only [stackChain] at hchain
              obtain ⟨hedge, hchainTail⟩ := hchain
              rcases stackChain_transGen nodes (hd :: rest) hd rest name
                  hchainTail rfl hstk with h | h
              · exact ⟨hd, Relation.TransGen.single (h ▸ hedge)⟩
              · exact ⟨name, h.tail hedge⟩
        · cases hvis : alookup st.levels name with
          | some lv =>
            left
            refine ⟨lv, st, ?_, rfl, LvExt.refl, hinv, hnone, hvis⟩
            rw [calcLevel_succ]
            simp only [hnode]
            rw [if_neg hstk]
            simp only [hvis]
          | none =>
            by_cases hsrc : node.ntype = NodeType.source
            · left
              refine ⟨0, ⟨setKey st.levels name 0, st.stack⟩, ?_, rfl,
                LvExt.setKey_fresh hvis,
                stateInv_insert_source nodes st.levels name node hinv hnode hsrc hvis,
                ?_, alookup_setKey_self _ _ _⟩
              · rw [calcLevel_succ]
                simp only [hnode]
                rw [if_neg hstk]
                simp only [hvis]
                rw [if_pos hsrc]
              · intro s hs
                have hsneq : name ≠ s := fun he => hstk (he ▸ hs)
                rw [alookup_setKey_other _ _ _ _ hsneq]
                exact hnone s hs
            · have htar : node.ntype = NodeType.target := by
                cases hh : node.ntype with
                | source => exact absurd hh hsrc
                | target => rfl
              have hdepsOK := (ih f (Nat.lt_succ_self f)).2
              have hcall := hdepsOK node.deps ⟨st.levels, name :: st.stack⟩ (-1)
                name st.stack rfl
                (fun d hd => ⟨node, hnode, hd⟩)
                (fun d hd => hclosed name node hnode d hd)
                hinv
                (List.nodup_cons.mpr ⟨hstk, hnd⟩)
                (by
                  intro s hs
                  rcases List.mem_cons.mp hs with h | h
                  · rw [h]; exact ha
                  · exact hsome s h)
                (by
                  intro s hs
                  rcases List.mem_cons.mp hs with h | h
                  · rw [h]; exact hvis
                  · exact hnone s h)
                hchain
                (by simp only [List.length_cons]; omega)
              rcases hcall with
                ⟨m, st', hrun, hstack', hext, hinv', hnone', hdsome, hmval⟩ |
                ⟨m, hrun, hcyc⟩
              · left
                have hnamefresh : alookup st'.levels name = none :=
                  hnone' name (List.mem_cons_self _ _)
                refine ⟨m + 1, ⟨setKey st'.levels name (m + 1), st.stack⟩, ?_, rfl,
                  LvExt.trans hext (LvExt.setKey_fresh hnamefresh),
                  stateInv_insert_target nodes st'.levels name node (m + 1)
                    hinv' hnode htar hnamefresh hdsome (by rw [hmval]),
                  ?_, alookup_setKey_self _ _ _⟩
                · rw [calcLevel_succ]
                  simp only [hnode]
                  rw [if_neg hstk]
                  simp only [hvis]
                  rw [if_neg hsrc]
                  simp only [hrun]
                · intro s hs
                  have hsneq : name ≠ s := fun he => hstk (he ▸ hs)
                  rw [alookup_setKey_other _ _ _ _ hsneq]
                  exact hnone' s (List.mem_cons_of_mem _ hs)
              · right
                refine ⟨m, ?_, hcyc⟩
                rw [calcLevel_succ]
                simp only [hnode]
                rw [if_neg hstk]
                simp only [hvis]
                rw [if_neg hsrc]
                simp only [hrun]
    have hdeps : CalcDepsOK nodes fuel := by
      intro deps
      induction deps with
      | nil =>
        intro st maxd cur rest0 hst hedges hdsome hinv hnd hsome hnone hchain hfuel
        left
        exact ⟨maxd, st, calcDeps_nil nodes fuel st maxd, rfl, LvExt.refl, hinv,
          hnone, fun d hd => absurd hd (List.not_mem_nil d), rfl⟩
      | cons d rest ihrest =>
        intro st maxd cur rest0 hst hedges hdsome hinv hnd hsome hnone hchain hfuel
        have hchain_d : stackChain nodes (d :: st.stack) := by
          rw [hst]
          simp only [stackChain]
          refine ⟨hedges d (List.mem_cons_self _ _), ?_⟩
          rw [hst] at hchain
          exact hchain
        rcases hlevel d st (hdsome d (List.mem_cons_self _ _)) hinv hnd hsome
            hnone hchain_d hfuel with
          ⟨ld, st1, hrun1, hstk1, hext1, hinv1, hnone1, hld⟩ | ⟨m, hrun1, hcyc⟩
        · have hcall := ihrest st1 (if ld > maxd then ld else maxd) cur rest0
            (hstk1.trans hst)
            (fun x hx => hedges x (List.mem_cons_of_mem _ hx))
            (fun x hx => hdsome x (List.mem_cons_of_mem _ hx))
            hinv1
            (by rw [hstk1]; exact hnd)
            (by
              intro s hs
              rw [hstk1] at hs
              exact hsome s hs)
            (by
              intro s hs
              rw [hstk1] at hs
              exact hnone1 s hs)
            (by rw [hstk1]; exact hchain)
            (by rw [hstk1]; exact hfuel)
          rcases hcall with
            ⟨m, st', hrun2, hstk2, hext2, hinv2, hnone2, hdsome2, hm⟩ |
            ⟨m, hrun2, hcyc⟩
          · left
            refine ⟨m, st', ?_, hstk2.trans hstk1, hext1.trans hext2, hinv2,
              ?_, ?_, ?_⟩
            · rw [calcDeps_cons]
              simp only [hrun1]
              exact hrun2
            · intro s hs
              refine hnone2 s ?_
              rw [hstk1]
              exact hs
            · intro x hx
              rcases List.mem_cons.mp hx with h | h
              · rw [h, hext2 d ld hld]
                rfl
              · exact hdsome2 x h
            · rw [hm, maxDeps_cons, hext2 d ld hld]
              simp only [Option.getD_some]
          · right
            refine ⟨m, ?_, hcyc⟩
            rw [calcDeps_cons]
            simp only [hrun1]
            exact hrun2
        · right
          refine ⟨m, ?_, hcyc⟩
          rw [calcDeps_cons]
          simp only [hrun1]
    exact ⟨hlevel, hdeps⟩

theorem calcAll_nil (nodes : List (String × GNode)) (st : LevelState) :
    calcAll nodes [] st = .ok st := by
  rw [calcAll]

theorem calcAll_cons (nodes : List (String × GNode)) (nt : String × GNode)
    (rest : List (String × GNode)) (st : LevelState) :
    calcAll nodes (nt :: rest) st =
      match calcLevel nodes (nodes.length + 1) nt.1 st with
      | .error e => .error e
      | .ok (_, st') => calcAll nodes rest st' := by
  rw [calcAll]

theorem calcAll_sound (nodes : List (String × GNode))
    (hkeys : (nodes.map Prod.fst).Nodup) (hclosed : ClosedNodes nodes) :
    ∀ (todo : List (String × GNode)) (st : LevelState),
      StateInv nodes st.levels → st.stack = [] →
      (∀ nt ∈ todo, (alookup nodes nt.1).isSome = true) →
      (∃ st', calcAll nodes todo st = .ok st' ∧ st'.stack = [] ∧
        LvExt st.levels st'.levels ∧ StateInv nodes st'.levels ∧
        (∀ nt ∈ todo, (alookup st'.levels nt.1).isSome = true)) ∨
      (∃ m, calcAll nodes todo st = .error (.circularDependency m) ∧
        ∃ n, Relation.TransGen (nodeEdge nodes) n n) := by
  intro todo
  induction todo with
  | nil =>
    intro st hinv hstk _
    left
    exact ⟨st, calcAll_nil nodes st, hstk, LvExt.refl, hinv,
      fun nt hnt => absurd hnt (List.not_mem_nil nt)⟩
  | cons nt rest ih =>
    intro st hinv hstk htodo
    have hcall := (calc_sound nodes hkeys hclosed (nodes.length + 1)).1 nt.1 st
      (htodo nt (List.mem_cons_self _ _)) hinv
      (by rw [hstk]; exact List.nodup_nil)
      (by rw [hstk]; intro s hs; cases hs)
      (by rw [hstk]; intro s hs; cases hs)
      (by rw [hstk]; simp [stackChain])
      (by rw [hstk]; simp)
    rcases hcall with
      ⟨lv, st1, hrun1, hstk1, hext1, hinv1, _, hbind⟩ | ⟨m, hrun1, hcyc⟩
    · rcases ih st1 hinv1 (hstk1.trans hstk)
          (fun x hx => htodo x (List.mem_cons_of_mem _ hx)) with
        ⟨st', hrun2, hstk', hext2, hinv', hall⟩ | ⟨m, hrun2, hcyc⟩
      · left
        refine ⟨st', ?_, hstk', hext1.trans hext2, hinv', ?_⟩
        · rw [calcAll_cons]
          simp only [hrun1]
          exact hrun2
        · intro x hx
          rcases List.mem_cons.mp hx with h | h
          · rw [h, hext2 nt.1 lv hbind]
            rfl
          · exact hall x h
      · right
        refine ⟨m, ?_, hcyc⟩
        rw [calcAll_cons]
        simp only [hrun1]
        exact hrun2
    · right
      refine ⟨m, ?_, hcyc⟩
      rw [calcAll_cons]
      simp only [hrun1]

theorem alookup_foldl_setKey {β γ : Type} (g : String → β → γ)
    (L : List (String × β)) (hL : (L.map Prod.fst).Nodup) :
    ∀ (init : List (String × γ)) (n : String),
      alookup (L.foldl (fun acc x => setKey acc x.1 (g x.1 x.2)) init) n =
        match alookup L n with
        | some v => some (g n v)
        | none => alookup init n := by
  induction L with
  | nil => intro init n; rfl
  | cons hd rest ih =>
    obtain ⟨k, v⟩ := hd
    simp only [List.map_cons, List.nodup_cons] at hL
    intro init n
    rw [List.foldl_cons]
    by_cases hk : k = n
    · subst hk
      have hnone : alookup rest k = none :=
        alookup_eq_none_of_notin rest k hL.1
      rw [ih hL.2, hnone]
      simp only [alookup, if_pos rfl]
      exact alookup_setKey_self init k (g k v)
    · rw [ih hL.2]
      simp only [alookup, if_neg hk]
      cases alookup rest n with
      | some w => rfl
      | none =>
        simp only []
        exact alookup_setKey_other init n k (g k v) hk

theorem buildNodeList_lookup (cfg : Config)
    (hs : (cfg.sources.map Prod.fst).Nodup)
    (ht : (cfg.targets.map Prod.fst).Nodup) (n : String) :
    alookup (buildNodeList cfg) n =
      match alookup cfg.targets n with
      | some t => some ⟨NodeType.target, 0, t.imports⟩
      | none =>
        match alookup cfg.sources n with
        | some _ => some ⟨NodeType.source, 0, []⟩
        | none => none := by
  rw [buildNodeList]
  rw [alookup_foldl_setKey (fun _ t => (⟨NodeType.target, 0, t.imports⟩ : GNode))
    cfg.targets ht]
  cases alookup cfg.targets n with
  | some t => rfl
  | none =>
    simp only []
    rw [alookup_foldl_setKey (fun _ _ => (⟨NodeType.source, 0, []⟩ : GNode))
      cfg.sources hs]
    cases alookup cfg.sources n with
    | some s => rfl
    | none => rfl

theorem setKey_keys {α : Type} (m : List (String × α)) (k : String) (v : α) :
    (setKey m k v).map Prod.fst =
      if k ∈ m.map Prod.fst then m.map Prod.fst else m.map Prod.fst ++ [k] := by
  induction m with
  | nil => simp [setKey]
  | cons hd rest ih =>
    obtain ⟨k', v'⟩ := hd
    by_cases h : k' = k
    · subst h
      simp [setKey]
    · rw [setKey, if_neg h]
      simp only [List.map_cons, List.mem_cons]
      by_cases hm : k ∈ rest.map Prod.fst
      · rw [ih, if_pos hm, if_pos (Or.inr hm)]
      · rw [ih, if_neg hm, if_neg (by
          rintro (hc | hc)
          · exact h hc.symm
          · exact hm hc)]
        simp

theorem setKey_keys_nodup {α : Type} (m : List (String × α)) (k : String)
    (v : α) (hm : (m.map Prod.fst).Nodup) :
    ((setKey m k v).map Prod.fst).Nodup := by
  rw [setKey_keys]
  by_cases h : k ∈ m.map Prod.fst
  · rw [if_pos h]
    exact hm
  · rw [if_neg h]
    simp [List.nodup_append, hm, h]

theorem foldl_setKey_keys_nodup {β γ : Type} (g : String → β → γ)
    (L : List (String × β)) :
    ∀ init : List (String × γ), (init.map Prod.fst).Nodup →
      ((L.foldl (fun acc x => setKey acc x.1 (g x.1 x.2)) init).map Prod.fst).Nodup := by
  induction L with
  | nil => intro init h; exact h
  | cons hd rest ih =>
    intro init h
    rw [List.foldl_cons]
    exact ih _ (setKey_keys_nodup init hd.1 (g hd.1 hd.2) h)

theorem buildNodeList_keys_nodup (cfg : Config) :
    ((buildNodeList cfg).map Prod.fst).Nodup := by
  rw [buildNodeList]
  exact foldl_setKey_keys_nodup (fun _ t => (⟨NodeType.target, 0, t.imports⟩ : GNode))
    cfg.targets _
    (foldl_setKey_keys_nodup (fun _ _ => (⟨NodeType.source, 0, []⟩ : GNode))
      cfg.sources [] List.nodup_nil)

theorem buildNodeList_closed (cfg : Config)
    (hs : (cfg.sources.map Prod.fst).Nodup)
    (ht : (cfg.targets.map Prod.fst).Nodup)
    (himp : importsResolve cfg) : ClosedNodes (buildNodeList cfg) := by
  intro n node hnode d hd
  rw [buildNodeList_lookup cfg hs ht] at hnode
  rw [buildNodeList_lookup cfg hs ht]
  cases htn : alookup cfg.targets n with
  | some t =>
    rw [htn] at hnode
    injection hnode with hnode
    subst hnode
    have hmem := mem_of_alookup_some cfg.targets n t htn
    have := himp (n, t) hmem d hd
    rcases this with h | h
    · cases htd : alookup cfg.targets d with
      | some t' => rfl
      | none =>
        simp only [htd]
        rcases Option.isSome_iff_exists.mp h with ⟨sv, hsv⟩
        rw [hsv]
        rfl
    · rcases Option.isSome_iff_exists.mp h with ⟨tv, htv⟩
      rw [htv]
      rfl
  | none =>
    rw [htn] at hnode
    cases hsn : alookup cfg.sources n with
    | some s =>
      rw [hsn] at hnode
      injection hnode with hnode
      subst hnode
      cases hd
    | none =>
      rw [hsn] at hnode
      cases hnode

theorem buildNodeList_sources_leafless (cfg : Config)
    (hs : (cfg.sources.map Prod.fst).Nodup)
    (ht : (cfg.targets.map Prod.fst).Nodup) :
    SourcesLeafless (buildNodeList cfg) := by
  intro n node hnode hsrc
  rw [buildNodeList_lookup cfg hs ht] at hnode
  cases htn : alookup cfg.targets n with
  | some t =>
    rw [htn] at hnode
    injection hnode with hnode
    subst hnode
    cases hsrc
  | none =>
    rw [htn] at hnode
    cases hsn : alookup cfg.sources n with
    | some s =>
      rw [hsn] at hnode
      injection hnode with hnode
      subst hnode
      rfl
    | none =>
      rw [hsn] at hnode
      cases hnode

theorem importError_eq_none (cfg : Config)
    (hs : (cfg.sources.map Prod.fst).Nodup)
    (ht : (cfg.targets.map Prod.fst).Nodup)
    (himp : importsResolve cfg) :
    importError cfg (buildNodeList cfg) = none := by
  rw [importError]
  apply List.findSome?_eq_none_iff.mpr
  intro nt hnt
  apply List.findSome?_eq_none_iff.mpr
  intro imp himpmem
  rw [if_neg]
  intro hnone
  rw [buildNodeList_lookup cfg hs ht] at hnone
  rcases himp nt hnt imp himpmem with h | h
  · rcases Option.isSome_iff_exists.mp h with ⟨sv, hsv⟩
    cases htd : alookup cfg.targets imp with
    | some t => rw [htd] at hnone; cases hnone
    | none => rw [htd, hsv] at hnone; cases hnone
  · rcases Option.isSome_iff_exists.mp h with ⟨tv, htv⟩
    rw [htv] at hnone
    cases hnone

theorem nodeEdge_iff_cfgEdge (cfg : Config)
    (hs : (cfg.sources.map Prod.fst).Nodup)
    (ht : (cfg.targets.map Prod.fst).Nodup) (a b : String) :
    nodeEdge (buildNodeList cfg) a b ↔ cfgEdge cfg a b := by
  constructor
  · rintro ⟨node, hnode, hb⟩
    rw [buildNodeList_lookup cfg hs ht] at hnode
    cases htn : alookup cfg.targets a with
    | some t =>
      rw [htn] at hnode
      injection hnode with hnode
      subst hnode
      exact ⟨t, htn, hb⟩
    | none =>
      rw [htn] at hnode
      cases hsn : alookup cfg.sources a with
      | some s =>
        rw [hsn] at hnode
        injection hnode with hnode
        subst hnode
        cases hb
      | none =>
        rw [hsn] at hnode
        cases hnode
  · rintro ⟨t, hta, hb⟩
    refine ⟨⟨NodeType.target, 0, t.imports⟩, ?_, hb⟩
    rw [buildNodeList_lookup cfg hs ht, hta]

theorem nodeCycle_iff_hasCycle (cfg : Config)
    (hs : (cfg.sources.map Prod.fst).Nodup)
    (ht : (cfg.targets.map Prod.fst).Nodup) :
    (∃ n, Relation.TransGen (nodeEdge (buildNodeList cfg)) n n) ↔ hasCycle cfg := by
  constructor
  · rintro ⟨n, h⟩
    exact ⟨n, h.mono (fun a b => (nodeEdge_iff_cfgEdge cfg hs ht a b).mp)⟩
  · rintro ⟨n, h⟩
    exact ⟨n, h.mono (fun a b => (nodeEdge_iff_cfgEdge cfg hs ht a b).mpr)⟩

theorem alookup_map_keyed {β γ : Type} (f : String → β → γ)
    (l : List (String × β)) (n : String) :
    alookup (l.map fun x => (x.1, f x.1 x.2)) n = (alookup l n).map (f n) := by
  induction l with
  | nil => rfl
  | cons hd rest ih =>
    obtain ⟨k, v⟩ := hd
    by_cases hk : k = n
    · subst hk
      simp [alookup]
    · simp only [List.map_cons, alookup, if_neg hk]
      exact ih

theorem buildGraph_eq (cfg : Config)
    (hs : (cfg.sources.map Prod.fst).Nodup)
    (ht : (cfg.targets.map Prod.fst).Nodup)
    (himp : importsResolve cfg) :
    BuildGraph cfg =
      match calcAll (buildNodeList cfg) (buildNodeList cfg) ⟨[], []⟩ with
      | .error e => .error e
      | .ok st =>
        .ok ⟨(buildNodeList cfg).map fun nt =>
          (nt.1, { nt.2 with level := (alookup st.levels nt.1).getD 0 })⟩ := by
  rw [BuildGraph, importError_eq_none cfg hs ht himp]

theorem buildGraph_cases (cfg : Config)
    (hs : (cfg.sources.map Prod.fst).Nodup)
    (ht : (cfg.targets.map Prod.fst).Nodup)
    (himp : importsResolve cfg) :
    (∃ (g : Graph) (st : LevelState), BuildGraph cfg = .ok g ∧
      g.nodes = (buildNodeList cfg).map (fun nt =>
        (nt.1, { nt.2 with level := (alookup st.levels nt.1).getD 0 })) ∧
      StateInv (buildNodeList cfg) st.levels ∧
      (∀ nt ∈ buildNodeList cfg, (alookup st.levels nt.1).isSome = true)) ∨
    ((∃ m, BuildGraph cfg = .error (.circularDependency m)) ∧ hasCycle cfg) := by
  have hclosed := buildNodeList_closed cfg hs ht himp
  have hkeys := buildNodeList_keys_nodup cfg
  have hca := calcAll_sound (buildNodeList cfg) hkeys hclosed (buildNodeList cfg)
    ⟨[], []⟩
    (by
      intro a b c h1 h2
      simp [alookup] at h2)
    rfl
    (fun nt hnt =>
      alookup_isSome_of_mem_keys _ nt.1 (List.mem_map.mpr ⟨nt, hnt, rfl⟩))
  rcases hca with ⟨st, hrun, _, _, hinv, hall⟩ | ⟨m, hrun, hcyc⟩
  · left
    refine ⟨_, st, ?_, rfl, hinv, ?_⟩
    · rw [buildGraph_eq cfg hs ht himp, hrun]
    · intro nt hnt
      exact hall nt hnt
  · right
    constructor
    · exact ⟨m, by rw [buildGraph_eq cfg hs ht himp, hrun]⟩
    · exact (nodeCycle_iff_hasCycle cfg hs ht).mp hcyc

theorem buildGraph_ok_main (cfg : Config)
    (hs : (cfg.sources.map Prod.fst).Nodup)
    (ht : (cfg.targets.map Prod.fst).Nodup)
    (himp : importsResolve cfg) (g : Graph)
    (hok : BuildGraph cfg = .ok g) :
    ∃ st : LevelState,
      g.nodes = (buildNodeList cfg).map (fun nt =>
        (nt.1, { nt.2 with level := (alookup st.levels nt.1).getD 0 })) ∧
      StateInv (buildNodeList cfg) st.levels ∧
      (∀ nt ∈ buildNodeList cfg, (alookup st.levels nt.1).isSome = true) := by
  rcases buildGraph_cases cfg hs ht himp with
    ⟨g', st, hok', hgeq, hinv, hall⟩ | ⟨⟨m, herr⟩, hcyc⟩
  · have hgg : g = g' := Except.ok.inj (hok.symm.trans hok')
    subst hgg
    exact ⟨st, hgeq, hinv, hall⟩
  · rw [hok] at herr
    cases herr

theorem buildGraph_ok_facts (cfg : Config)
    (hs : (cfg.sources.map Prod.fst).Nodup)
    (ht : (cfg.targets.map Prod.fst).Nodup)
    (himp : importsResolve cfg) (g : Graph)
    (hok : BuildGraph cfg = .ok g) :
    ((g.nodes.map Prod.fst).Nodup) ∧
    (∀ n node, alookup g.nodes n = some node →
      (node.ntype = NodeType.source → node.level = 0) ∧
      0 ≤ node.level ∧
      (node.ntype = NodeType.target →
        (∀ d ∈ node.deps, ∃ dnode, alookup g.nodes d = some dnode) ∧
        (∀ d ∈ node.deps, g.levelOf d + 1 ≤ node.level) ∧
        (node.deps ≠ [] → ∃ d ∈ node.deps, node.level = g.levelOf d + 1)) ∧
      (node.ntype = NodeType.source → node.deps = []) ∧
      (∀ d ∈ node.deps, g.levelOf d < g.levelOf n)) ∧
    ¬ hasCycle cfg := by
  obtain ⟨st, hgeq, hinv, hall⟩ := buildGraph_ok_main cfg hs ht himp g hok
  have hclosed := buildNodeList_closed cfg hs ht himp
  have hleafless := buildNodeList_sources_leafless cfg hs ht
  have hkeys := buildNodeList_keys_nodup cfg
  have hg_lookup : ∀ n, alookup g.nodes n =
      (alookup (buildNodeList cfg) n).map
        (fun node => { node with level := (alookup st.levels n).getD 0 }) := by
    intro n
    rw [hgeq]
    exact alookup_map_keyed
      (fun k node => { node with level := (alookup st.levels k).getD 0 })
      (buildNodeList cfg) n
  have hlev : ∀ n, (alookup (buildNodeList cfg) n).isSome = true →
      g.levelOf n = (alookup st.levels n).getD 0 := by
    intro n hn
    rcases Option.isSome_iff_exists.mp hn with ⟨nd, hnd⟩
    rw [Graph.levelOf, hg_lookup n, hnd]
    rfl
  have hbind : ∀ n node0, alookup (buildNodeList cfg) n = some node0 →
      ∃ lv, alookup st.levels n = some lv := by
    intro n node0 h0
    exact Option.isSome_iff_exists.mp
      (hall (n, node0) (mem_of_alookup_some _ n node0 h0))
  have hdec : ∀ a b, nodeEdge (buildNodeList cfg) a b →
      g.levelOf b < g.levelOf a := by
    rintro a b ⟨anode, ha, hb⟩
    cases hat : anode.ntype with
    | source =>
      rw [hleafless a anode ha hat] at hb
      cases hb
    | target =>
      rcases hbind a anode ha with ⟨lva, hlva⟩
      obtain ⟨_, _, htarc⟩ := hinv a anode lva ha hlva
      obtain ⟨hdpres, heq⟩ := htarc hat
      rcases Option.isSome_iff_exists.mp (hdpres b hb) with ⟨lvb, hlvb⟩
      have hbn : (alookup (buildNodeList cfg) b).isSome = true :=
        hclosed a anode ha b hb
      have hmax := maxDeps_ge_mem st.levels anode.deps b hb (-1)
      rw [hlev a (by rw [ha]; rfl), hlev b hbn, hlva, hlvb]
      rw [hlvb] at hmax
      simp only [Option.getD_some] at hmax ⊢
      omega
  refine ⟨?_, ?_, ?_⟩
  · rw [hgeq]
    have : ((buildNodeList cfg).map (fun nt =>
        (nt.1, { nt.2 with level := (alookup st.levels nt.1).getD 0 }))).map
          Prod.fst = (buildNodeList cfg).map Prod.fst := by
      rw [List.map_map]
      rfl
    rw [this]
    exact hkeys
  · intro n node hnode
    rw [hg_lookup n] at hnode
    cases h0 : alookup (buildNodeList cfg) n with
    | none =>
      rw [h0] at hnode
      cases hnode
    | some node0 =>
      rw [h0] at hnode
      injection hnode with hnode
      subst hnode
      rcases hbind n node0 h0 with ⟨lv, hlv⟩
      obtain ⟨h0le, hsrc0, htar0⟩ := hinv n node0 lv h0 hlv
      have hlevel_eq :
          ({ node0 with level := (alookup st.levels n).getD 0 } : GNode).level
            = lv := by
        rw [hlv]
        rfl
      refine ⟨?_, ?_, ?_, ?_, ?_⟩
      · intro hsrc
        rw [hlevel_eq]
        exact hsrc0 hsrc
      · rw [hlevel_eq]
        exact h0le
      · intro htar
        obtain ⟨hdpres, heq⟩ := htar0 htar
        have hdeps_eq :
            ({ node0 with level := (alookup st.levels n).getD 0 } : GNode).deps
              = node0.deps := rfl
        rw [hdeps_eq]
        have hdnode : ∀ d ∈ node0.deps,
            (alookup (buildNodeList cfg) d).isSome = true :=
          fun d hd => hclosed n node0 h0 d hd
        have hlevd : ∀ d ∈ node0.deps, ∃ lvd,
            alookup st.levels d = some lvd ∧ g.levelOf d = lvd ∧ 0 ≤ lvd := by
          intro d hd
          rcases Option.isSome_iff_exists.mp (hdpres d hd) with ⟨lvd, hlvd⟩
          rcases Option.isSome_iff_exists.mp (hdnode d hd) with ⟨dn, hdn⟩
          obtain ⟨hd0le, _, _⟩ := hinv d dn lvd hdn hlvd
          refine ⟨lvd, hlvd, ?_, hd0le⟩
          rw [hlev d (hdnode d hd), hlvd]
          rfl
        refine ⟨?_, ?_, ?_⟩
        · intro d hd
          rcases Option.isSome_iff_exists.mp (hdnode d hd) with ⟨dn, hdn⟩
          exact ⟨_, by rw [hg_lookup d, hdn]; rfl⟩
        · intro d hd
          rcases hlevd d hd with ⟨lvd, hlvd, hglev, _⟩
          have hmax := maxDeps_ge_mem st.levels node0.deps d hd (-1)
          rw [hlvd] at hmax
          simp only [Option.getD_some] at hmax
          rw [hlevel_eq, hglev]
          omega
        · intro hne
          rcases maxDeps_achieved st.levels node0.deps (-1) with hach | ⟨d, hd, hach⟩
          · exfalso
            cases hdl : node0.deps with
            | nil => exact hne hdl
            | cons d0 ds =>
              have hd0 : d0 ∈ node0.deps := by
                rw [hdl]
                exact List.mem_cons_self _ _
              rcases hlevd d0 hd0 with ⟨lvd, hlvd, _, hge0⟩
              have hmax := maxDeps_ge_mem st.levels node0.deps d0 hd0 (-1)
              rw [hlvd] at hmax
              simp only [Option.getD_some] at hmax
              omega
          · rcases hlevd d hd with ⟨lvd, hlvd, hglev, _⟩
            refine ⟨d, hd, ?_⟩
            rw [hlevel_eq, hglev, heq, hach, hlvd]
            rfl
      · intro hsrc
        exact hleafless n node0 h0 hsrc
      · intro d hd
        have hlevn : g.levelOf n = (alookup st.levels n).getD 0 :=
          hlev n (by rw [h0]; rfl)
        have := hdec n d ⟨node0, h0, hd⟩
        exact this
  · intro hcyc
    rcases (nodeCycle_iff_hasCycle cfg hs ht).mpr hcyc with ⟨n, htg⟩
    have hlt : ∀ a b, Relation.TransGen (nodeEdge (buildNodeList cfg)) a b →
        g.levelOf b < g.levelOf a := by
      intro a b h
      induction h with
      | single h1 => exact hdec _ _ h1
      | tail h1 h2 ih => exact lt_trans (hdec _ _ h2) ih
    exact absurd (hlt n n htg) (lt_irrefl _)

/-- C2: for every configuration whose imports all resolve to known
sources or targets, `BuildGraph` returns an error if and only if the import
relation contains a cycle; in the success case every source node
has level 0 and every target node with at least one dependency has level
equal to one plus the maximum of its dependencies' levels. -/
theorem buildGraph_spec (cfg : Config)
    (hs : (cfg.sources.map Prod.fst).Nodup)
    (ht : (cfg.targets.map Prod.fst).Nodup)
    (himp : importsResolve cfg) :
    ((∃ e, BuildGraph cfg = .error e) ↔ hasCycle cfg) ∧
    (∀ g, BuildGraph cfg = .ok g →
      (∀ nt ∈ g.nodes, nt.2.ntype = NodeType.source → nt.2.level = 0) ∧
      (∀ nt ∈ g.nodes, nt.2.ntype = NodeType.target → nt.2.deps ≠ [] →
        (∀ d ∈ nt.2.deps, g.levelOf d + 1 ≤ nt.2.level) ∧
        (∃ d ∈ nt.2.deps, nt.2.level = g.levelOf d + 1))) := by
  constructor
  · constructor
    · rintro ⟨e, he⟩
      rcases buildGraph_cases cfg hs ht himp with
        ⟨g, st, hok, _, _, _⟩ | ⟨_, hcyc⟩
      · rw [hok] at he
        cases he
      · exact hcyc
    · intro hcyc
      rcases buildGraph_cases cfg hs ht himp with
        ⟨g, st, hok, _, _, _⟩ | ⟨⟨m, herr⟩, _⟩
      · exact absurd hcyc (buildGraph_ok_facts cfg hs ht himp g hok).2.2
      · exact ⟨_, herr⟩
  · intro g hok
    obtain ⟨hnd, hfacts, _⟩ := buildGraph_ok_facts cfg hs ht himp g hok
    constructor
    · intro nt hnt hsrc
      have hl := alookup_of_mem_nodup g.nodes hnd nt.1 nt.2 hnt
      exact (hfacts nt.1 nt.2 hl).1 hsrc
    · intro nt hnt htar hne
      have hl := alookup_of_mem_nodup g.nodes hnd nt.1 nt.2 hnt
      obtain ⟨-, -, htarc, -, -⟩ := hfacts nt.1 nt.2 hl
      obtain ⟨-, hble, hach⟩ := htarc htar
      exact ⟨hble, hach hne⟩

/-- The scenario-B style configuration used by the witnesses: one source,
a two-step inheritance chain. -/
def cfgGraphW : Config :=
  { vault := { address := "a" },
    sources := [("analytics", {})],
    targets := [("Stg", { accountID := "111111111111", imports := ["analytics"] }),
                ("Prod", { accountID := "222222222222", imports := ["Stg"] })] }

/-- C2 witness: the hypotheses hold for the concrete chain config, the
graph builds without error (so the iff certifies acyclicity), and the
concrete levels satisfy the recurrence. -/
theorem buildGraph_spec_witness :
    importsResolve cfgGraphW ∧
    ((∃ e, BuildGraph cfgGraphW = .error e) ↔ hasCycle cfgGraphW) := by
  constructor
  · unfold importsResolve
    decide
  · exact (buildGraph_spec cfgGraphW (by decide) (by decide)
      (by unfold importsResolve; decide)).1

theorem count_targets (l : List (String × GNode))
    (hnd : (l.map Prod.fst).Nodup) (name : String) :
    (l.filterMap fun nt =>
      if nt.2.ntype = NodeType.target then some nt.1 else none).count name =
      match alookup l name with
      | some node => if node.ntype = NodeType.target then 1 else 0
      | none => 0 := by
  induction l with
  | nil => rfl
  | cons hd rest ih =>
    obtain ⟨k, node⟩ := hd
    simp only [List.map_cons, List.nodup_cons] at hnd
    rw [List.filterMap_cons]
    by_cases htar : node.ntype = NodeType.target
    · simp only [if_pos htar]
      rw [List.count_cons, ih hnd.2]
      by_cases hk : k = name
      · subst hk
        have hrest : alookup rest k = none :=
          alookup_eq_none_of_notin rest k hnd.1
        rw [hrest]
        simp [alookup, htar]
      · simp only [alookup, if_neg hk]
        simp [hk]
    · simp only [if_neg htar]
      rw [ih hnd.2]
      by_cases hk : k = name
      · subst hk
        have hrest : alookup rest k = none :=
          alookup_eq_none_of_notin rest k hnd.1
        rw [hrest]
        simp [alookup, htar]
      · simp [alookup, hk]

theorem targets_filterMap_nodup (l : List (String × GNode))
    (hnd : (l.map Prod.fst).Nodup) :
    (l.filterMap fun nt =>
      if nt.2.ntype = NodeType.target then some nt.1 else none).Nodup := by
  induction l with
  | nil => exact List.nodup_nil
  | cons hd rest ih =>
    obtain ⟨k, node⟩ := hd
    simp only [List.map_cons, List.nodup_cons] at hnd
    rw [List.filterMap_cons]
    by_cases htar : node.ntype = NodeType.target
    · simp only [if_pos htar]
      refine List.nodup_cons.mpr ⟨?_, ih hnd.2⟩
      intro hmem
      rcases List.mem_filterMap.mp hmem with ⟨nt, hnt, heq⟩
      have hk : nt.1 = k := by
        by_cases h : nt.2.ntype = NodeType.target
        · rw [if_pos h] at heq
          exact Option.some.inj heq
        · rw [if_neg h] at heq
          cases heq
      exact hnd.1 (hk ▸ List.mem_map.mpr ⟨nt, hnt, rfl⟩)
    · simp only [if_neg htar]
      exact ih hnd.2

theorem topoLe_total (g : Graph) : ∀ a b, topoLe g a b ∨ topoLe g b a := by
  intro a b
  rcases lt_trichotomy (g.levelOf a) (g.levelOf b) with h | h | h
  · exact Or.inl (Or.inl h)
  · rcases le_total a b with hn | hn
    · exact Or.inl (Or.inr ⟨h, hn⟩)
    · exact Or.inr (Or.inr ⟨h.symm, hn⟩)
  · exact Or.inr (Or.inl h)

theorem topoLe_trans (g : Graph) :
    ∀ a b c, topoLe g a b → topoLe g b c → topoLe g a c := by
  intro a b c hab hbc
  rcases hab with h1 | ⟨h1, h1n⟩
  · rcases hbc with h2 | ⟨h2, h2n⟩
    · exact Or.inl (lt_trans h1 h2)
    · exact Or.inl (h2 ▸ h1)
  · rcases hbc with h2 | ⟨h2, h2n⟩
    · exact Or.inl (h1 ▸ h2)
    · exact Or.inr ⟨h1.trans h2, le_trans h1n h2n⟩

theorem topologicalOrder_sorted (g : Graph) :
    List.Sorted (topoLe g) g.TopologicalOrder := by
  haveI : IsTotal String (topoLe g) := ⟨topoLe_total g⟩
  haveI : IsTrans String (topoLe g) := ⟨topoLe_trans g⟩
  rw [Graph.TopologicalOrder]
  exact List.sorted_insertionSort _ _

/-- C3: for a graph built successfully, `TopologicalOrder` lists every
target exactly once (and no source or unknown name), is sorted by
`(level, name)`, and places every target dependency strictly before the
target that imports it. -/
theorem topologicalOrder_spec (cfg : Config)
    (hs : (cfg.sources.map Prod.fst).Nodup)
    (ht : (cfg.targets.map Prod.fst).Nodup)
    (himp : importsResolve cfg) (g : Graph)
    (hok : BuildGraph cfg = .ok g) :
    (∀ name node, alookup g.nodes name = some node →
      (node.ntype = NodeType.target → g.TopologicalOrder.count name = 1) ∧
      (node.ntype = NodeType.source → g.TopologicalOrder.count name = 0)) ∧
    (∀ name, alookup g.nodes name = none →
      g.TopologicalOrder.count name = 0) ∧
    List.Sorted (topoLe g) g.TopologicalOrder ∧
    (∀ t tnode d dnode, (t, tnode) ∈ g.nodes → tnode.ntype = NodeType.target →
      d ∈ tnode.deps → alookup g.nodes d = some dnode →
      dnode.ntype = NodeType.target →
      ∀ i j : Fin g.TopologicalOrder.length,
        g.TopologicalOrder.get i = d → g.TopologicalOrder.get j = t →
        (i : Nat) < j) := by
  obtain ⟨hnd, hfacts, -⟩ := buildGraph_ok_facts cfg hs ht himp g hok
  have hperm : g.TopologicalOrder.Perm
      (g.nodes.filterMap fun nt =>
        if nt.2.ntype = NodeType.target then some nt.1 else none) := by
    rw [Graph.TopologicalOrder]
    exact List.perm_insertionSort _ _
  have hcount : ∀ name, g.TopologicalOrder.count name =
      match alookup g.nodes name with
      | some node => if node.ntype = NodeType.target then 1 else 0
      | none => 0 := by
    intro name
    rw [hperm.count_eq, count_targets g.nodes hnd name]
  refine ⟨?_, ?_, topologicalOrder_sorted g, ?_⟩
  · intro name node hl
    constructor
    · intro htar
      rw [hcount name, hl]
      simp [htar]
    · intro hsrc
      rw [hcount name, hl]
      simp [hsrc]
  · intro name hl
    rw [hcount name, hl]
  · intro t tnode d dnode hmem htar hd hdl hdtar i j hi hj
    have htl : alookup g.nodes t = some tnode :=
      alookup_of_mem_nodup g.nodes hnd t tnode hmem
    have hlt : g.levelOf d < g.levelOf t :=
      (hfacts t tnode htl).2.2.2.2 d hd
    have hnd_topo : g.TopologicalOrder.Nodup :=
      hperm.nodup_iff.mpr (targets_filterMap_nodup g.nodes hnd)
    have hpair : List.Pairwise (fun a b => topoLe g a b ∧ a ≠ b)
        g.TopologicalOrder :=
      (topologicalOrder_sorted g).and hnd_topo
    have hstrict : List.Pairwise
        (fun a b => g.levelOf a < g.levelOf b ∨
          (g.levelOf a = g.levelOf b ∧ a < b)) g.TopologicalOrder := by
      refine hpair.imp ?_
      rintro a b ⟨hle, hne⟩
      rcases hle with h | ⟨h, hn⟩
      · exact Or.inl h
      · exact Or.inr ⟨h, lt_of_le_of_ne hn hne⟩
    have hget := List.pairwise_iff_get.mp hstrict
    by_contra hij
    push_neg at hij
    rcases Nat.lt_or_ge (j : Nat) (i : Nat) with hji | hji
    · have hji' : j < i := hji
      have hcontra := hget j i hji'
      rw [hi, hj] at hcontra
      rcases hcontra with h | ⟨h, _⟩
      · omega
      · rw [h] at hlt
        exact absurd hlt (lt_irrefl _)
    · have heq : (i : Nat) = j := by omega
      have heq' : i = j := Fin.ext heq
      rw [heq', hj] at hi
      rw [hi] at hlt
      exact absurd hlt (lt_irrefl _)

def gW : Graph :=
  ⟨[("analytics", ⟨NodeType.source, 0, []⟩),
    ("Stg", ⟨NodeType.target, 1, ["analytics"]⟩),
    ("Prod", ⟨NodeType.target, 2, ["Stg"]⟩)]⟩

theorem topologicalOrder_spec_witness :
    (cfgGraphW.sources.map Prod.fst).Nodup ∧
    (cfgGraphW.targets.map Prod.fst).Nodup ∧
    importsResolve cfgGraphW ∧
    BuildGraph cfgGraphW = .ok gW ∧
    gW.TopologicalOrder.count "Stg" = 1 ∧
    gW.TopologicalOrder.count "analytics" = 0 ∧
    List.Sorted (topoLe gW) gW.TopologicalOrder := by
  have h := topologicalOrder_spec cfgGraphW (by decide) (by decide)
    (by unfold importsResolve; decide) gW rfl
  refine ⟨by decide, by decide, by unfold importsResolve; decide, rfl, ?_, ?_, h.2.2.1⟩
  · exact (h.1 "Stg" ⟨NodeType.target, 1, ["analytics"]⟩ rfl).1 rfl
  · exact (h.1 "analytics" ⟨NodeType.source, 0, []⟩ rfl).2 rfl

/-- Whitespace characters of the JSON grammar (`encoding/json`). -/
def isWsChar (c : Char) : Bool :=
  c = ' ' || c = '\t' || c = '\n' || c = '\r'

/-- Skip leading JSON whitespace. -/
def skipWs : List Char → List Char
  | [] => []
  | c :: rest => if isWsChar c then skipWs rest else c :: rest

/-- ASCII decimal digit test. -/
def isDigitChar (c : Char) : Bool :=
  48 ≤ c.toNat && c.toNat ≤ 57

/-- Longest leading run of decimal digits, with the remainder. -/
def takeDigits : List Char → List Char × List Char
  | [] => ([], [])
  | c :: rest =>
    if isDigitChar c then
      let (ds, r) := takeDigits rest
      (c :: ds, r)
    else ([], c :: rest)

/-- Decimal value of a digit run. -/
def digitsToNat (ds : List Char) : Nat :=
  ds.foldl (fun n c => n * 10 + (c.toNat - 48)) 0

/-- Value of one hexadecimal digit. -/
def hexVal (c : Char) : Option Nat :=
  if 48 ≤ c.toNat ∧ c.toNat ≤ 57 then some (c.toNat - 48)
  else if 97 ≤ c.toNat ∧ c.toNat ≤ 102 then some (c.toNat - 87)
  else if 65 ≤ c.toNat ∧ c.toNat ≤ 70 then some (c.toNat - 55)
  else none

/-- Four hexadecimal digits of a `\uXXXX` escape. -/
def parseHex4 : List Char → Option (Nat × List Char)
  | c1 :: c2 :: c3 :: c4 :: rest =>
    match hexVal c1, hexVal c2, hexVal c3, hexVal c4 with
    | some h1, some h2, some h3, some h4 =>
      some (((h1 * 16 + h2) * 16 + h3) * 16 + h4, rest)
    | _, _, _, _ => none
  | _ => none

/-- Body of a JSON string after the opening quote: standard escapes,
`\uXXXX` with UTF-16 surrogate pairing (unpaired surrogates become
U+FFFD, as in Go), and rejection of raw control characters. -/
def parseStringBody : Nat → List Char → List Char → Option (String × List Char)
  | 0, _, _ => none
  | fuel + 1, cs, acc =>
    match cs with
    | [] => none
    | '"' :: rest => some (⟨acc.reverse⟩, rest)
    | '\\' :: esc :: rest =>
      match esc with
      | '"' => parseStringBody fuel rest ('"' :: acc)
      | '\\' => parseStringBody fuel rest ('\\' :: acc)
      | '/' => parseStringBody fuel rest ('/' :: acc)
      | 'b' => parseStringBody fuel rest ('\x08' :: acc)
      | 'f' => parseStringBody fuel rest ('\x0c' :: acc)
      | 'n' => parseStringBody fuel rest ('\n' :: acc)
      | 'r' => parseStringBody fuel rest ('\r' :: acc)
      | 't' => parseStringBody fuel rest ('\t' :: acc)
      | 'u' =>
        match parseHex4 rest with
        | none => none
        | some (n, rest1) =>
          if 0xD800 ≤ n ∧ n < 0xDC00 then
            match rest1 with
            | '\\' :: 'u' :: rest2 =>
              match parseHex4 rest2 with
              | some (m, rest3) =>
                if 0xDC00 ≤ m ∧ m < 0xE000 then
                  parseStringBody fuel rest3
                    (Char.ofNat (0x10000 + (n - 0xD800) * 0x400 + (m - 0xDC00)) :: acc)
                else parseStringBody fuel rest1 ('�' :: acc)
              | none => parseStringBody fuel rest1 ('�' :: acc)
            | _ => parseStringBody fuel rest1 ('�' :: acc)
          else if 0xDC00 ≤ n ∧ n < 0xE000 then
            parseStringBody fuel rest1 ('�' :: acc)
          else
            parseStringBody fuel rest1 (Char.ofNat n :: acc)
      | _ => none
    | c :: rest =>
      if c.toNat < 0x20 then none
      else parseStringBody fuel rest (c :: acc)

/-- Optional fraction part of a JSON number (a dot demands digits). -/
def parseFrac : List Char → Option (List Char × List Char)
  | '.' :: rest =>
    (match takeDigits rest with
     | ([], _) => none
     | (fs, r) => some (fs, r))
  | cs => some ([], cs)

/-- Optional exponent part of a JSON number. -/
def parseExp : List Char → Option (Int × List Char)
  | [] => some (0, [])
  | c :: rest =>
    if c = 'e' ∨ c = 'E' then
      let (sgn, rest1) : Int × List Char :=
        match rest with
        | '+' :: r => (1, r)
        | '-' :: r => (-1, r)
        | r => (1, r)
      match takeDigits rest1 with
      | ([], _) => none
      | (es, r) => some (sgn * (digitsToNat es : Int), r)
    else some (0, c :: rest)

theorem json_den_ne_zero (a : Nat) (e : Int) :
    10 ^ a * (if 0 ≤ e then 1 else 10 ^ (-e).toNat) ≠ 0 := by
  apply Nat.mul_ne_zero
  · positivity
  · split
    · norm_num
    · positivity

/-- The exact rational value of a JSON numeric literal with sign `neg`,
integer digits `ds`, fraction digits `fs` and decimal exponent `e`
(modelling the `float64` that `json.Unmarshal` produces). -/
def ratFromParts (neg : Bool) (ds fs : List Char) (e : Int) : ℚ :=
  let base : Int := (digitsToNat ds : Int) * (10 : Int) ^ fs.length + (digitsToNat fs : Int)
  Rat.normalize
    ((if neg then -base else base) * (if 0 ≤ e then (10 : Int) ^ e.toNat else 1))
    (10 ^ fs.length * (if 0 ≤ e then 1 else 10 ^ (-e).toNat))
    (json_den_ne_zero fs.length e)

/-- A JSON number per RFC 8259 (as enforced by `encoding/json`): optional
minus, integer part without leading zeros, optional fraction, optional
exponent. -/
def parseNumber (cs : List Char) : Option (ℚ × List Char) :=
  let (neg, cs1) : Bool × List Char :=
    match cs with
    | '-' :: rest => (true, rest)
    | _ => (false, cs)
  match takeDigits cs1 with
  | ([], _) => none
  | (ds, cs2) =>
    if 1 < ds.length ∧ ds.headD '0' = '0' then none
    else
      match parseFrac cs2 with
      | none => none
      | some (fs, cs3) =>
        match parseExp cs3 with
        | none => none
        | some (e, cs4) => some (ratFromParts neg ds fs e, cs4)

/-- Comma-separated array elements after the first element's start, given
a parser `rec` for one value. -/
def parseElementsWith (rec : List Char → Option (GoValue × List Char)) :
    Nat → List Char → List GoValue → Option (GoValue × List Char)
  | 0, _, _ => none
  | fuel + 1, cs, acc =>
    match rec cs with
    | none => none
    | some (v, rest) =>
      match skipWs rest with
      | ',' :: rest' => parseElementsWith rec fuel rest' (v :: acc)
      | ']' :: rest' => some (.varr (v :: acc).reverse, rest')
      | _ => none

/-- Comma-separated object members, given a parser `rec` for one value.
Duplicate keys overwrite earlier ones (`m[key] = value` on a Go map). -/
def parseMembersWith (rec : List Char → Option (GoValue × List Char)) :
    Nat → List Char → List (String × GoValue) → Option (GoValue × List Char)
  | 0, _, _ => none
  | fuel + 1, cs, acc =>
    match skipWs cs with
    | '"' :: rest =>
      (match parseStringBody (rest.length + 1) rest [] with
       | none => none
       | some (k, rest1) =>
         match skipWs rest1 with
         | ':' :: rest2 =>
           (match rec rest2 with
            | none => none
            | some (v, rest3) =>
              match skipWs rest3 with
              | ',' :: rest4 => parseMembersWith rec fuel rest4 (setKey acc k v)
              | '\x7d' :: rest4 => some (.vobj (setKey acc k v), rest4)
              | _ => none)
         | _ => none)
    | _ => none

/-- One JSON value, consuming leading whitespace: the recursive-descent
model of `json.Unmarshal` into `interface\x7b\x7d` (objects become maps,
arrays slices, numbers `float64`, here exact rationals). -/
def parseValue : Nat → List Char → Option (GoValue × List Char)
  | 0, _ => none
  | fuel + 1, cs =>
    match skipWs cs with
    | [] => none
    | 'n' :: 'u' :: 'l' :: 'l' :: rest => some (.vnull, rest)
    | 't' :: 'r' :: 'u' :: 'e' :: rest => some (.vbool true, rest)
    | 'f' :: 'a' :: 'l' :: 's' :: 'e' :: rest => some (.vbool false, rest)
    | '"' :: rest =>
      (match parseStringBody (rest.length + 1) rest [] with
       | some (s, rest') => some (.vstr s, rest')
       | none => none)
    | '[' :: rest =>
      (match skipWs rest with
       | ']' :: rest' => some (.varr [], rest')
       | _ => parseElementsWith (fun cs' => parseValue fuel cs') fuel rest [])
    | '\x7b' :: rest =>
      (match skipWs rest with
       | '\x7d' :: rest' => some (.vobj [], rest')
       | _ => parseMembersWith (fun cs' => parseValue fuel cs') fuel rest [])
    | c :: rest =>
      if c = '-' ∨ isDigitChar c then
        parseNumber (c :: rest) |>.map (fun p => (.vnum p.1, p.2))
      else none

/-- Definition `json.Unmarshal` of a whole input: one value, optionally surrounded
by whitespace; trailing non-whitespace is an error, as is empty input. -/
def parseJSON (s : String) : Option GoValue :=
  match parseValue (3 * s.data.length + 3) s.data with
  | some (v, rest) => if skipWs rest = [] then some v else none
  | none => none

/-- Definition `CompareSecretsJSON` from `pkg/utils/deepmerge.go`: parse both sides;
if `existing` is not JSON, compare the raw bytes; if only `new` is not
JSON, report inequality; otherwise compare the parses with `DeepEqual`. -/
def CompareSecretsJSON (existing nw : String) : Bool :=
  match parseJSON existing with
  | none => existing == nw
  | some a =>
    match parseJSON nw with
    | none => false
    | some b => DeepEqual a b

/-- Structural equivalence of parsed JSON values: scalars equal on the
nose, arrays pointwise equivalent, objects equivalent as finite maps
(same key set, equivalent values at every key) — the relation that holds
between two serializations of one abstract value that differ in map-key
order or numeric literal width. -/
inductive JEquiv : GoValue → GoValue → Prop where
  | vnull : JEquiv .vnull .vnull
  | vbool (b : Bool) : JEquiv (.vbool b) (.vbool b)
  | vnum (q : ℚ) : JEquiv (.vnum q) (.vnum q)
  | vstr (s : String) : JEquiv (.vstr s) (.vstr s)
  | varr (as bs : List GoValue) (hlen : as.length = bs.length)
      (h : ∀ (i : Nat) (hi : i < as.length) (hj : i < bs.length),
        JEquiv (as.get ⟨i, hi⟩) (bs.get ⟨i, hj⟩)) :
      JEquiv (.varr as) (.varr bs)
  | vobj (aes bes : List (String × GoValue))
      (hnda : (aes.map Prod.fst).Nodup) (hndb : (bes.map Prod.fst).Nodup)
      (hsome : ∀ k, (alookup aes k).isSome = (alookup bes k).isSome)
      (h : ∀ k va vb, alookup aes k = some va → alookup bes k = some vb →
        JEquiv va vb) :
      JEquiv (.vobj aes) (.vobj bes)

theorem rdel_of_get : ∀ (as bs : List GoValue), as.length = bs.length →
    (∀ (i : Nat) (hi : i < as.length) (hj : i < bs.length),
      reflectDeepEqual (as.get ⟨i, hi⟩) (bs.get ⟨i, hj⟩) = true) →
    reflectDeepEqualList as bs = true := by
  intro as
  induction as with
  | nil =>
    intro bs hlen _
    cases bs with
    | nil => rfl
    | cons b bs => simp at hlen
  | cons a as ih =>
    intro bs hlen h
    cases bs with
    | nil => simp at hlen
    | cons b bs =>
      rw [reflectDeepEqualList]
      have h0 := h 0 (by simp) (by simp)
      simp only [List.get] at h0
      rw [h0]
      rw [ih bs (by simpa using hlen) (fun i hi hj => by
        have := h (i + 1) (by simpa using Nat.succ_lt_succ hi)
          (by simpa using Nat.succ_lt_succ hj)
        simpa using this)]
      rfl

theorem rdee_of : ∀ (aes bes : List (String × GoValue)),
    (∀ k v, (k, v) ∈ aes → ∃ w, alookup bes k = some w ∧ reflectDeepEqual v w = true) →
    reflectDeepEqualEntries aes bes = true := by
  intro aes
  induction aes with
  | nil => intro bes _; rfl
  | cons hd rest ih =>
    intro bes h
    obtain ⟨k, v⟩ := hd
    rw [reflectDeepEqualEntries]
    obtain ⟨w, hw, hr⟩ := h k v (List.mem_cons_self _ _)
    rw [hw]
    show (reflectDeepEqual v w && reflectDeepEqualEntries rest bes) = true
    rw [hr, ih bes (fun k' v' hm => h k' v' (List.mem_cons_of_mem _ hm))]
    rfl

theorem length_eq_of_alookup_isSome {α : Type} (aes bes : List (String × α))
    (hnda : (aes.map Prod.fst).Nodup) (hndb : (bes.map Prod.fst).Nodup)
    (hsome : ∀ k, (alookup aes k).isSome = (alookup bes k).isSome) :
    aes.length = bes.length := by
  have hperm : (aes.map Prod.fst).Perm (bes.map Prod.fst) := by
    rw [List.perm_ext_iff_of_nodup hnda hndb]
    intro k
    constructor
    · intro hk
      have h2 : (alookup bes k).isSome = true := by
        rw [← hsome]
        exact alookup_isSome_of_mem_keys aes k hk
      obtain ⟨v, hv⟩ := Option.isSome_iff_exists.mp h2
      exact mem_keys_of_alookup_some bes k v hv
    · intro hk
      have h2 : (alookup aes k).isSome = true := by
        rw [hsome]
        exact alookup_isSome_of_mem_keys bes k hk
      obtain ⟨v, hv⟩ := Option.isSome_iff_exists.mp h2
      exact mem_keys_of_alookup_some aes k v hv
  have := hperm.length_eq
  simpa using this

theorem jequiv_reflectDeepEqual {a b : GoValue} (h : JEquiv a b) :
    reflectDeepEqual a b = true := by
  induction h with
  | vnull => rfl
  | vbool b => simp [reflectDeepEqual]
  | vnum q => simp [reflectDeepEqual]
  | vstr s => simp [reflectDeepEqual]
  | varr as bs hlen h ih =>
    have hl : reflectDeepEqualList as bs = true := rdel_of_get as bs hlen ih
    simp [reflectDeepEqual, hl]
  | vobj aes bes hnda hndb hsome h ih =>
    have hlen := length_eq_of_alookup_isSome aes bes hnda hndb hsome
    have hent : reflectDeepEqualEntries aes bes = true := by
      apply rdee_of
      intro k v hmem
      have ha : alookup aes k = some v := alookup_of_mem_nodup aes hnda k v hmem
      have h2 : (alookup bes k).isSome = true := by
        rw [← hsome, ha]
        rfl
      obtain ⟨w, hw⟩ := Option.isSome_iff_exists.mp h2
      exact ⟨w, hw, ih k v w ha hw⟩
    simp [reflectDeepEqual, hlen, hent]

/-- C5: `CompareSecretsJSON` returns true on any two inputs that parse to
structurally equivalent JSON values — in particular on two serializations
of one value differing in map-key order or numeric literal width — and
whenever either side fails to parse as JSON the result equals
byte-for-byte comparison of the two inputs. -/
theorem compareSecretsJSON_spec :
    (∀ s1 s2 a b, parseJSON s1 = some a → parseJSON s2 = some b →
      JEquiv a b → CompareSecretsJSON s1 s2 = true) ∧
    (∀ s1 s2, parseJSON s1 = none → CompareSecretsJSON s1 s2 = (s1 == s2)) ∧
    (∀ s1 s2, parseJSON s2 = none → CompareSecretsJSON s1 s2 = (s1 == s2)) := by
  refine ⟨?_, ?_, ?_⟩
  · intro s1 s2 a b h1 h2 heq
    unfold CompareSecretsJSON
    rw [h1, h2]
    show DeepEqual a b = true
    unfold DeepEqual
    rw [normalizeValue_id, normalizeValue_id]
    exact jequiv_reflectDeepEqual heq
  · intro s1 s2 h
    unfold CompareSecretsJSON
    rw [h]
  · intro s1 s2 h
    unfold CompareSecretsJSON
    cases hp : parseJSON s1 with
    | none => rfl
    | some a =>
      rw [h]
      cases hbe : (s1 == s2) with
      | false => rfl
      | true =>
        have he : s1 = s2 := eq_of_beq hbe
        rw [he, h] at hp
        cases hp

theorem compareSecretsJSON_spec_witness :
    CompareSecretsJSON "\x7b\"a\":1,\"b\":2\x7d" "\x7b\"b\":2.0,\"a\":1\x7d" = true ∧
    CompareSecretsJSON "notjson" "notjson" = ("notjson" == "notjson") := by
  constructor
  · refine compareSecretsJSON_spec.1 "\x7b\"a\":1,\"b\":2\x7d" "\x7b\"b\":2.0,\"a\":1\x7d"
      (.vobj [("a", .vnum 1), ("b", .vnum 2)])
      (.vobj [("b", .vnum 2), ("a", .vnum 1)])
      rfl rfl ?_
    refine JEquiv.vobj _ _ (by decide) (by decide) ?_ ?_
    · intro k
      by_cases h1 : "a" = k
      · subst h1
        rfl
      · by_cases h2 : "b" = k
        · subst h2
          rfl
        · simp [alookup, h1, h2]
    · intro k va vb ha hb
      by_cases h1 : "a" = k
      · subst h1
        simp [alookup] at ha hb
        rw [← ha, ← hb]
        exact .vnum 1
      · by_cases h2 : "b" = k
        · subst h2
          simp [alookup] at ha hb
          rw [← ha, ← hb]
          exact .vnum 2
        · simp [alookup, h1, h2] at ha
  · exact compareSecretsJSON_spec.2.1 "notjson" "notjson" rfl

inductive HVal where
  | hnull : HVal
  | hbool : Bool → HVal
  | hnum : ℚ → HVal
  | hstr : String → HVal
  | harr : List HVal → HVal
  | href : Nat → HVal
deriving Repr

def nlookup {α : Type} : List (Nat × α) → Nat → Option α
  | [], _ => none
  | (k', v) :: rest, k => if k' = k then some v else nlookup rest k

def nsetKey {α : Type} : List (Nat × α) → Nat → α → List (Nat × α)
  | [], k, v => [(k, v)]
  | (k', v') :: rest, k, v =>
    if k' = k then (k, v) :: rest else (k', v') :: nsetKey rest k v

structure Heap where
  cells : List (Nat × List (String × HVal))
  next : Nat
deriving Repr

def heapAlloc (h : Heap) (entries : List (String × HVal)) : Nat × Heap :=
  (h.next, ⟨(h.next, entries) :: h.cells, h.next + 1⟩)

def heapRead (h : Heap) (a : Nat) : Option (List (String × HVal)) :=
  nlookup h.cells a

def heapWrite (h : Heap) (a : Nat) (entries : List (String × HVal)) : Heap :=
  ⟨nsetKey h.cells a entries, h.next⟩

def heapWriteKey (h : Heap) (a : Nat) (k : String) (v : HVal) : Option Heap :=
  match heapRead h a with
  | none => none
  | some entries => some (heapWrite h a (setKey entries k v))

def copyListWith (rec : Heap → HVal → Option (HVal × Heap)) :
    Heap → List HVal → Option (List HVal × Heap)
  | h, [] => some ([], h)
  | h, v :: rest =>
    match rec h v with
    | none => none
    | some (cv, h1) =>
      match copyListWith rec h1 rest with
      | none => none
      | some (cvs, h2) => some (cv :: cvs, h2)

def copyEntriesWith (rec : Heap → HVal → Option (HVal × Heap)) :
    Heap → List (String × HVal) → Option (List (String × HVal) × Heap)
  | h, [] => some ([], h)
  | h, (k, v) :: rest =>
    match rec h v with
    | none => none
    | some (cv, h1) =>
      match copyEntriesWith rec h1 rest with
      | none => none
      | some (cvs, h2) => some ((k, cv) :: cvs, h2)

def deepCopyValueH : Nat → Heap → HVal → Option (HVal × Heap)
  | 0, _, _ => none
  | fuel + 1, h, v =>
    match v with
    | .href a =>
      (match heapRead h a with
       | none => none
       | some entries =>
         match copyEntriesWith (fun h' v' => deepCopyValueH fuel h' v') h entries with
         | none => none
         | some (centries, h1) =>
           let (na, h2) := heapAlloc h1 centries
           some (.href na, h2))
    | .harr elems =>
      (match copyListWith (fun h' v' => deepCopyValueH fuel h' v') h elems with
       | none => none
       | some (celems, h1) => some (.harr celems, h1))
    | v' => some (v', h)

def appendSlicesWith (recCopy : Heap → HVal → Option (HVal × Heap))
    (h : Heap) (des ses : List HVal) : Option (HVal × Heap) :=
  match copyListWith recCopy h des with
  | none => none
  | some (ds', h1) =>
    match copyListWith recCopy h1 ses with
    | none => none
    | some (ss', h2) => some (.harr (ds' ++ ss'), h2)

def mergeValuesWith (recMerge : Heap → Nat → Nat → Option (Nat × Heap))
    (recCopy : Heap → HVal → Option (HVal × Heap))
    (h : Heap) (dstV srcV : HVal) : Option (HVal × Heap) :=
  match srcV with
  | .hnull => some (dstV, h)
  | srcV' =>
    match dstV with
    | .hnull => recCopy h srcV'
    | dstV' =>
      match srcV' with
      | .href sa =>
        (match dstV' with
         | .href da => (recMerge h da sa).map (fun p => (HVal.href p.1, p.2))
         | _ => recCopy h (.href sa))
      | .harr ses =>
        (match dstV' with
         | .harr des => appendSlicesWith recCopy h des ses
         | _ => recCopy h (.harr ses))
      | s => recCopy h s

def mergeFoldWith (recMV : Heap → HVal → HVal → Option (HVal × Heap))
    (recCopy : Heap → HVal → Option (HVal × Heap)) :
    Heap → Nat → List (String × HVal) → Option Heap
  | h, _, [] => some h
  | h, dstA, (k, srcVal) :: rest =>
    match heapRead h dstA with
    | none => none
    | some dentries =>
      match alookup dentries k with
      | none =>
        (match recCopy h srcVal with
         | none => none
         | some (cv, h1) =>
           match heapWriteKey h1 dstA k cv with
           | none => none
           | some h2 => mergeFoldWith recMV recCopy h2 dstA rest)
      | some dstVal =>
        match recMV h dstVal srcVal with
        | none => none
        | some (mv, h1) =>
          match heapWriteKey h1 dstA k mv with
          | none => none
          | some h2 => mergeFoldWith recMV recCopy h2 dstA rest

def DeepMergeH : Nat → Heap → Option Nat → Option Nat → Option (Nat × Heap)
  | 0, _, _, _ => none
  | fuel + 1, h, dstO, srcO =>
    let (dstA, h0) : Nat × Heap :=
      match dstO with
      | some a => (a, h)
      | none => heapAlloc h []
    match srcO with
    | none => some (dstA, h0)
    | some sa =>
      match heapRead h0 sa with
      | none => none
      | some sentries =>
        match mergeFoldWith
            (fun h' dv sv => mergeValuesWith
              (fun h'' da sa' => DeepMergeH fuel h'' (some da) (some sa'))
              (fun h'' v => deepCopyValueH fuel h'' v) h' dv sv)
            (fun h' v => deepCopyValueH fuel h' v)
            h0 dstA sentries with
        | none => none
        | some h1 => some (dstA, h1)

theorem deepMergeH_ret_some : ∀ (fuel : Nat) (h : Heap) (a : Nat) (srcO : Option Nat)
    (r : Nat) (h' : Heap),
    DeepMergeH fuel h (some a) srcO = some (r, h') → r = a := by
  intro fuel h a srcO r h' hok
  cases fuel with
  | zero => cases hok
  | succ fuel =>
    cases srcO with
    | none =>
      simp only [DeepMergeH] at hok
      injection hok with hok
      injection hok with ha hb
      exact ha.symm
    | some sa =>
      simp only [DeepMergeH] at hok
      split at hok
      · cases hok
      · split at hok
        · cases hok
        · injection hok with hok
          injection hok with ha hb
          exact ha.symm

theorem deepMergeH_ret_none : ∀ (fuel : Nat) (h : Heap) (srcO : Option Nat)
    (r : Nat) (h' : Heap),
    DeepMergeH fuel h none srcO = some (r, h') → r = h.next := by
  intro fuel h srcO r h' hok
  cases fuel with
  | zero => cases hok
  | succ fuel =>
    cases srcO with
    | none =>
      simp only [DeepMergeH, heapAlloc] at hok
      injection hok with hok
      injection hok with ha hb
      exact ha.symm
    | some sa =>
      simp only [DeepMergeH, heapAlloc] at hok
      split at hok
      · cases hok
      · split at hok
        · cases hok
        · injection hok with hok
          injection hok with ha hb
          exact ha.symm

mutual

def valAvoids : (Nat → Prop) → HVal → Prop
  | S, .href a => ¬ S a
  | S, .harr vs => listAvoids S vs
  | _, _ => True

def listAvoids : (Nat → Prop) → List HVal → Prop
  | _, [] => True
  | S, v :: rest => valAvoids S v ∧ listAvoids S rest

end

/-- The non-`S` region of the heap is closed: no cell outside `S` holds a
reference into `S`. -/
def HeapAvoids (S : Nat → Prop) (h : Heap) : Prop :=
  ∀ a entries, ¬ S a → heapRead h a = some entries →
    ∀ k v, (k, v) ∈ entries → valAvoids S v

mutual

def refsGe : Nat → HVal → Prop
  | n, .href a => n ≤ a
  | n, .harr vs => listRefsGe n vs
  | _, _ => True

def listRefsGe : Nat → List HVal → Prop
  | _, [] => True
  | n, v :: rest => refsGe n v ∧ listRefsGe n rest

end

mutual

theorem refsGe_mono : ∀ (n m : Nat), n ≤ m → ∀ v : HVal, refsGe m v → refsGe n v
  | n, m, hnm, .href a => fun h => le_trans hnm h
  | n, m, hnm, .harr vs => fun h => listRefsGe_mono n m hnm vs h
  | _, _, _, .hnull => fun _ => trivial
  | _, _, _, .hbool _ => fun _ => trivial
  | _, _, _, .hnum _ => fun _ => trivial
  | _, _, _, .hstr _ => fun _ => trivial

theorem listRefsGe_mono : ∀ (n m : Nat), n ≤ m → ∀ vs : List HVal,
    listRefsGe m vs → listRefsGe n vs
  | _, _, _, [] => fun _ => trivial
  | n, m, hnm, v :: rest => fun h =>
    ⟨refsGe_mono n m hnm v h.1, listRefsGe_mono n m hnm rest h.2⟩

end

mutual

theorem refsGe_valAvoids : ∀ (S : Nat → Prop) (n : Nat), (∀ b, S b → b < n) →
    ∀ v : HVal, refsGe n v → valAvoids S v
  | S, n, hS, .href a => fun h hSa => absurd (hS a hSa) (by rw [refsGe] at h; omega)
  | S, n, hS, .harr vs => fun h => listRefsGe_listAvoids S n hS vs h
  | _, _, _, .hnull => fun _ => trivial
  | _, _, _, .hbool _ => fun _ => trivial
  | _, _, _, .hnum _ => fun _ => trivial
  | _, _, _, .hstr _ => fun _ => trivial

theorem listRefsGe_listAvoids : ∀ (S : Nat → Prop) (n : Nat), (∀ b, S b → b < n) →
    ∀ vs : List HVal, listRefsGe n vs → listAvoids S vs
  | _, _, _, [] => fun _ => trivial
  | S, n, hS, v :: rest => fun h =>
    ⟨refsGe_valAvoids S n hS v h.1, listRefsGe_listAvoids S n hS rest h.2⟩

end

theorem nlookup_nsetKey_self {α : Type} (l : List (Nat × α)) (a : Nat) (e : α) :
    nlookup (nsetKey l a e) a = some e := by
  induction l with
  | nil => simp [nsetKey, nlookup]
  | cons hd rest ih =>
    obtain ⟨k', v'⟩ := hd
    by_cases hk : k' = a
    · simp [nsetKey, hk, nlookup]
    · simp only [nsetKey, if_neg hk, nlookup]
      exact ih

theorem nlookup_nsetKey_ne {α : Type} (l : List (Nat × α)) (a b : Nat) (e : α)
    (hne : b ≠ a) : nlookup (nsetKey l a e) b = nlookup l b := by
  induction l with
  | nil =>
    simp only [nsetKey, nlookup]
    rw [if_neg (fun h => hne h.symm)]
  | cons hd rest ih =>
    obtain ⟨k', v'⟩ := hd
    by_cases hk : k' = a
    · subst hk
      simp only [nsetKey, if_pos rfl, nlookup]
      rw [if_neg (fun h => hne h.symm), if_neg (fun h => hne h.symm)]
    · simp only [nsetKey, if_neg hk, nlookup]
      by_cases hb : k' = b
      · rw [if_pos hb, if_pos hb]
      · rw [if_neg hb, if_neg hb]
        exact ih

theorem mem_setKey_or {α : Type} (l : List (String × α)) (k : String) (v : α) :
    ∀ p ∈ setKey l k v, p ∈ l ∨ p = (k, v) := by
  induction l with
  | nil => intro p hp; simp [setKey] at hp; exact Or.inr hp
  | cons hd rest ih =>
    intro p hp
    obtain ⟨k', v'⟩ := hd
    by_cases hk : k' = k
    · simp only [setKey, if_pos hk] at hp
      rcases List.mem_cons.mp hp with h | h
      · exact Or.inr h
      · exact Or.inl (List.mem_cons_of_mem _ h)
    · simp only [setKey, if_neg hk] at hp
      rcases List.mem_cons.mp hp with h | h
      · exact Or.inl (h ▸ List.mem_cons_self _ _)
      · rcases ih p h with h2 | h2
        · exact Or.inl (List.mem_cons_of_mem _ h2)
        · exact Or.inr h2

theorem listRefsGe_append (n : Nat) : ∀ (xs ys : List HVal),
    listRefsGe n xs → listRefsGe n ys → listRefsGe n (xs ++ ys)
  | [], ys, _, hy => hy
  | x :: xs, ys, hx, hy => ⟨hx.1, listRefsGe_append n xs ys hx.2 hy⟩

theorem copyListWith_fresh (rec : Heap → HVal → Option (HVal × Heap))
    (hrec : ∀ h v r h', rec h v = some (r, h') →
      (h.next ≤ h'.next ∧ ∀ b, b < h.next → heapRead h' b = heapRead h b) ∧
      refsGe h.next r ∧
      (∀ a entries, heapRead h' a = some entries → heapRead h a = some entries ∨
        (h.next ≤ a ∧ ∀ k w, (k, w) ∈ entries → refsGe h.next w))) :
    ∀ (l : List HVal) (h : Heap) (res : List HVal) (h' : Heap),
      copyListWith rec h l = some (res, h') →
      (h.next ≤ h'.next ∧ ∀ b, b < h.next → heapRead h' b = heapRead h b) ∧
      listRefsGe h.next res ∧
      (∀ a entries, heapRead h' a = some entries → heapRead h a = some entries ∨
        (h.next ≤ a ∧ ∀ k w, (k, w) ∈ entries → refsGe h.next w)) := by
  intro l
  induction l with
  | nil =>
    intro h res h' hok
    rw [copyListWith] at hok
    injection hok with hok
    injection hok with ha hb
    subst hb
    subst ha
    exact ⟨⟨le_refl _, fun b _ => rfl⟩, trivial, fun a entries he => Or.inl he⟩
  | cons v rest ih =>
    intro h res h' hok
    rw [copyListWith] at hok
    cases h1 : rec h v with
    | none => simp only [h1] at hok; cases hok
    | some p =>
      obtain ⟨cv, hmid⟩ := p
      simp only [h1] at hok
      cases h2 : copyListWith rec hmid rest with
      | none => simp only [h2] at hok; cases hok
      | some q =>
        obtain ⟨cvs, hend⟩ := q
        simp only [h2] at hok
        injection hok with hok
        injection hok with ha hb
        subst hb
        subst ha
        obtain ⟨⟨m1, f1⟩, r1, c1⟩ := hrec h v cv hmid h1
        obtain ⟨⟨m2, f2⟩, r2, c2⟩ := ih hmid cvs hend h2
        refine ⟨⟨le_trans m1 m2, fun b hb => ?_⟩, ⟨r1, listRefsGe_mono _ _ m1 cvs r2⟩, ?_⟩
        · rw [f2 b (lt_of_lt_of_le hb m1), f1 b hb]
        · intro a entries he
          rcases c2 a entries he with he1 | ⟨hge, hrefs⟩
          · rcases c1 a entries he1 with he2 | ⟨hge2, hrefs2⟩
            · exact Or.inl he2
            · exact Or.inr ⟨hge2, hrefs2⟩
          · exact Or.inr ⟨le_trans m1 hge,
              fun k w hw => refsGe_mono _ _ m1 w (hrefs k w hw)⟩

theorem copyEntriesWith_fresh (rec : Heap → HVal → Option (HVal × Heap))
    (hrec : ∀ h v r h', rec h v = some (r, h') →
      (h.next ≤ h'.next ∧ ∀ b, b < h.next → heapRead h' b = heapRead h b) ∧
      refsGe h.next r ∧
      (∀ a entries, heapRead h' a = some entries → heapRead h a = some entries ∨
        (h.next ≤ a ∧ ∀ k w, (k, w) ∈ entries → refsGe h.next w))) :
    ∀ (l : List (String × HVal)) (h : Heap) (res : List (String × HVal)) (h' : Heap),
      copyEntriesWith rec h l = some (res, h') →
      (h.next ≤ h'.next ∧ ∀ b, b < h.next → heapRead h' b = heapRead h b) ∧
      (∀ k w, (k, w) ∈ res → refsGe h.next w) ∧
      (∀ a entries, heapRead h' a = some entries → heapRead h a = some entries ∨
        (h.next ≤ a ∧ ∀ k w, (k, w) ∈ entries → refsGe h.next w)) := by
  intro l
  induction l with
  | nil =>
    intro h res h' hok
    rw [copyEntriesWith] at hok
    injection hok with hok
    injection hok with ha hb
    subst hb
    subst ha
    exact ⟨⟨le_refl _, fun b _ => rfl⟩, by simp, fun a entries he => Or.inl he⟩
  | cons kv rest ih =>
    intro h res h' hok
    obtain ⟨k, v⟩ := kv
    rw [copyEntriesWith] at hok
    cases h1 : rec h v with
    | none => simp only [h1] at hok; cases hok
    | some p =>
      obtain ⟨cv, hmid⟩ := p
      simp only [h1] at hok
      cases h2 : copyEntriesWith rec hmid rest with
      | none => simp only [h2] at hok; cases hok
      | some q =>
        obtain ⟨cvs, hend⟩ := q
        simp only [h2] at hok
        injection hok with hok
        injection hok with ha hb
        subst hb
        subst ha
        obtain ⟨⟨m1, f1⟩, r1, c1⟩ := hrec h v cv hmid h1
        obtain ⟨⟨m2, f2⟩, r2, c2⟩ := ih hmid cvs hend h2
        refine ⟨⟨le_trans m1 m2, fun b hb => ?_⟩, ?_, ?_⟩
        · rw [f2 b (lt_of_lt_of_le hb m1), f1 b hb]
        · intro k' w hw
          rcases List.mem_cons.mp hw with h | h
          · injection h with hk hv
            subst hv
            exact r1
          · exact refsGe_mono _ _ m1 w (r2 k' w h)
        · intro a entries he
          rcases c2 a entries he with he1 | ⟨hge, hrefs⟩
          · rcases c1 a entries he1 with he2 | ⟨hge2, hrefs2⟩
            · exact Or.inl he2
            · exact Or.inr ⟨hge2, hrefs2⟩
          · exact Or.inr ⟨le_trans m1 hge,
              fun k' w hw => refsGe_mono _ _ m1 w (hrefs k' w hw)⟩

theorem deepCopyValueH_fresh : ∀ (fuel : Nat) (h : Heap) (v : HVal) (r : HVal) (h' : Heap),
    deepCopyValueH fuel h v = some (r, h') →
    (h.next ≤ h'.next ∧ ∀ b, b < h.next → heapRead h' b = heapRead h b) ∧
    refsGe h.next r ∧
    (∀ a entries, heapRead h' a = some entries → heapRead h a = some entries ∨
      (h.next ≤ a ∧ ∀ k w, (k, w) ∈ entries → refsGe h.next w)) := by
  intro fuel
  induction fuel with
  | zero => intro h v r h' hok; cases hok
  | succ fuel ih =>
    intro h v r h' hok
    cases v with
    | href a =>
      simp only [deepCopyValueH] at hok
      cases hr : heapRead h a with
      | none => simp only [hr] at hok; cases hok
      | some entries =>
        simp only [hr] at hok
        cases hc : copyEntriesWith (fun h' v' => deepCopyValueH fuel h' v') h entries with
        | none => simp only [hc] at hok; cases hok
        | some p =>
          obtain ⟨centries, h1⟩ := p
          simp only [hc, heapAlloc] at hok
          injection hok with hok
          injection hok with ha hb
          subst hb
          subst ha
          obtain ⟨⟨m1, f1⟩, r1, c1⟩ :=
            copyEntriesWith_fresh _ (fun hh vv rr hh' hkk => ih hh vv rr hh' hkk)
              entries h centries h1 hc
          refine ⟨⟨by show h.next ≤ h1.next + 1; omega, fun b hb => ?_⟩, ?_, ?_⟩
          · have hstep : heapRead ⟨(h1.next, centries) :: h1.cells, h1.next + 1⟩ b
                = heapRead h1 b := by
              show nlookup ((h1.next, centries) :: h1.cells) b = nlookup h1.cells b
              rw [nlookup, if_neg (by omega)]
            rw [hstep, f1 b hb]
          · show h.next ≤ h1.next
            exact m1
          · intro a' entries' he
            by_cases hfresh : h1.next = a'
            · subst hfresh
              have : entries' = centries := by
                have hread : heapRead ⟨(h1.next, centries) :: h1.cells, h1.next + 1⟩ h1.next
                    = some centries := by
                  show nlookup ((h1.next, centries) :: h1.cells) h1.next = some centries
                  rw [nlookup, if_pos rfl]
                rw [hread] at he
                injection he with he
                exact he.symm
              subst this
              exact Or.inr ⟨m1, r1⟩
            · have hstep : heapRead ⟨(h1.next, centries) :: h1.cells, h1.next + 1⟩ a'
                  = heapRead h1 a' := by
                show nlookup ((h1.next, centries) :: h1.cells) a' = nlookup h1.cells a'
                rw [nlookup, if_neg hfresh]
              rw [hstep] at he
              exact c1 a' entries' he
    | harr elems =>
      simp only [deepCopyValueH] at hok
      cases hc : copyListWith (fun h' v' => deepCopyValueH fuel h' v') h elems with
      | none => simp only [hc] at hok; cases hok
      | some p =>
        obtain ⟨celems, h1⟩ := p
        simp only [hc] at hok
        injection hok with hok
        injection hok with ha hb
        subst hb
        subst ha
        obtain ⟨⟨m1, f1⟩, r1, c1⟩ :=
          copyListWith_fresh _ (fun hh vv rr hh' hkk => ih hh vv rr hh' hkk)
            elems h celems h1 hc
        exact ⟨⟨m1, f1⟩, r1, c1⟩
    | hnull =>
      simp only [deepCopyValueH] at hok
      injection hok with hok
      injection hok with ha hb
      subst hb
      subst ha
      exact ⟨⟨le_refl _, fun b _ => rfl⟩, trivial, fun a entries he => Or.inl he⟩
    | hbool bv =>
      simp only [deepCopyValueH] at hok
      injection hok with hok
      injection hok with ha hb
      subst hb
      subst ha
      exact ⟨⟨le_refl _, fun b _ => rfl⟩, trivial, fun a entries he => Or.inl he⟩
    | hnum q =>
      simp only [deepCopyValueH] at hok
      injection hok with hok
      injection hok with ha hb
      subst hb
      subst ha
      exact ⟨⟨le_refl _, fun b _ => rfl⟩, trivial, fun a entries he => Or.inl he⟩
    | hstr s =>
      simp only [deepCopyValueH] at hok
      injection hok with hok
      injection hok with ha hb
      subst hb
      subst ha
      exact ⟨⟨le_refl _, fun b _ => rfl⟩, trivial, fun a entries he => Or.inl he⟩

def CellsExt (h h' : Heap) : Prop :=
  ∀ a entries, heapRead h' a = some entries → heapRead h a = some entries ∨
    (h.next ≤ a ∧ ∀ k w, (k, w) ∈ entries → refsGe h.next w)

theorem cells_heapAvoids (h h' : Heap) (S : Nat → Prop)
    (hbound : ∀ b, S b → b < h.next) (hH : HeapAvoids S h)
    (c : CellsExt h h') : HeapAvoids S h' := by
  intro a entries hna he
  rcases c a entries he with he1 | ⟨hge, hrefs⟩
  · exact hH a entries hna he1
  · intro k w hw
    exact refsGe_valAvoids S h.next hbound w (hrefs k w hw)

theorem heapWriteKey_sframe (h : Heap) (a : Nat) (k : String) (v : HVal) (h2 : Heap)
    (S : Nat → Prop) (hok : heapWriteKey h a k v = some h2)
    (hna : ¬ S a) (hv : valAvoids S v) (hH : HeapAvoids S h) :
    (∀ b, S b → heapRead h2 b = heapRead h b) ∧ HeapAvoids S h2 ∧ h2.next = h.next := by
  unfold heapWriteKey at hok
  cases hr : heapRead h a with
  | none => rw [hr] at hok; cases hok
  | some entries =>
    rw [hr] at hok
    injection hok with hok
    subst hok
    refine ⟨?_, ?_, rfl⟩
    · intro b hb
      have hne : b ≠ a := fun he => hna (he ▸ hb)
      show nlookup (nsetKey h.cells a (setKey entries k v)) b = nlookup h.cells b
      exact nlookup_nsetKey_ne h.cells a b _ hne
    · intro a' entries' hna' he
      by_cases ha : a' = a
      · subst ha
        have : entries' = setKey entries k v := by
          have hr2 : heapRead (heapWrite h a' (setKey entries k v)) a'
              = some (setKey entries k v) :=
            nlookup_nsetKey_self h.cells a' _
          rw [hr2] at he
          injection he with he
          exact he.symm
        subst this
        intro k' w hw
        rcases mem_setKey_or entries k v (k', w) hw with h1 | h1
        · exact hH a' entries hna' hr k' w h1
        · injection h1 with hk1 hv1
          subst hv1
          exact hv
      · have : heapRead (heapWrite h a (setKey entries k v)) a' = heapRead h a' :=
          nlookup_nsetKey_ne h.cells a a' _ ha
        rw [this] at he
        exact hH a' entries' hna' he

theorem appendSlicesWith_sframe (recCopy : Heap → HVal → Option (HVal × Heap))
    (hC : ∀ h v r h', recCopy h v = some (r, h') →
      (h.next ≤ h'.next ∧ ∀ b, b < h.next → heapRead h' b = heapRead h b) ∧
      refsGe h.next r ∧ CellsExt h h')
    (h : Heap) (des ses : List HVal) (mv : HVal) (h' : Heap) (S : Nat → Prop)
    (hok : appendSlicesWith recCopy h des ses = some (mv, h'))
    (hbound : ∀ b, S b → b < h.next) (hH : HeapAvoids S h) :
    (∀ b, S b → heapRead h' b = heapRead h b) ∧ HeapAvoids S h' ∧
      h.next ≤ h'.next ∧ valAvoids S mv := by
  unfold appendSlicesWith at hok
  cases h1 : copyListWith recCopy h des with
  | none => rw [h1] at hok; cases hok
  | some p =>
    obtain ⟨ds', hmid⟩ := p
    simp only [h1] at hok
    cases h2 : copyListWith recCopy hmid ses with
    | none => simp only [h2] at hok; cases hok
    | some q =>
      obtain ⟨ss', hend⟩ := q
      simp only [h2] at hok
      injection hok with hok
      injection hok with ha hb
      subst hb
      subst ha
      obtain ⟨⟨m1, f1⟩, r1, c1⟩ := copyListWith_fresh recCopy hC des h ds' hmid h1
      obtain ⟨⟨m2, f2⟩, r2, c2⟩ := copyListWith_fresh recCopy hC ses hmid ss' hend h2
      have call : CellsExt h hend := by
        intro a entries he
        rcases c2 a entries he with he1 | ⟨hge, hrefs⟩
        · rcases c1 a entries he1 with he2 | ⟨hge2, hrefs2⟩
          · exact Or.inl he2
          · exact Or.inr ⟨hge2, hrefs2⟩
        · exact Or.inr ⟨le_trans m1 hge,
            fun k w hw => refsGe_mono _ _ m1 w (hrefs k w hw)⟩
      refine ⟨fun b hb => ?_, cells_heapAvoids h hend S hbound hH call,
        le_trans m1 m2, ?_⟩
      · rw [f2 b (lt_of_lt_of_le (hbound b hb) m1), f1 b (hbound b hb)]
      · show listAvoids S (ds' ++ ss')
        exact listRefsGe_listAvoids S h.next hbound _
          (listRefsGe_append h.next ds' ss' r1 (listRefsGe_mono _ _ m1 ss' r2))

theorem mergeValuesWith_frame
    (recMerge : Heap → Nat → Nat → Option (Nat × Heap))
    (recCopy : Heap → HVal → Option (HVal × Heap))
    (hM : ∀ h da sa r h', recMerge h da sa = some (r, h') →
      ∀ S : Nat → Prop, (∀ b, S b → b < h.next) → HeapAvoids S h → ¬ S da →
        (∀ b, S b → heapRead h' b = heapRead h b) ∧ HeapAvoids S h' ∧
          h.next ≤ h'.next ∧ r = da)
    (hC : ∀ h v r h', recCopy h v = some (r, h') →
      (h.next ≤ h'.next ∧ ∀ b, b < h.next → heapRead h' b = heapRead h b) ∧
      refsGe h.next r ∧ CellsExt h h') :
    ∀ (h : Heap) (dstV srcV mv : HVal) (h' : Heap) (S : Nat → Prop),
      mergeValuesWith recMerge recCopy h dstV srcV = some (mv, h') →
      (∀ b, S b → b < h.next) → HeapAvoids S h → valAvoids S dstV →
      (∀ b, S b → heapRead h' b = heapRead h b) ∧ HeapAvoids S h' ∧
        h.next ≤ h'.next ∧ valAvoids S mv := by
  intro h dstV srcV mv h' S hok hbound hH hDV
  have copyCase : ∀ (v : HVal), recCopy h v = some (mv, h') →
      (∀ b, S b → heapRead h' b = heapRead h b) ∧ HeapAvoids S h' ∧
        h.next ≤ h'.next ∧ valAvoids S mv := by
    intro v hcv
    obtain ⟨⟨m1, f1⟩, r1, c1⟩ := hC h v mv h' hcv
    exact ⟨fun b hb => f1 b (hbound b hb), cells_heapAvoids h h' S hbound hH c1,
      m1, refsGe_valAvoids S h.next hbound mv r1⟩
  cases srcV with
  | hnull =>
    simp only [mergeValuesWith] at hok
    injection hok with hok
    injection hok with ha hb
    subst hb
    subst ha
    exact ⟨fun _ _ => rfl, hH, le_refl _, hDV⟩
  | href sa =>
    cases dstV with
    | hnull =>
      simp only [mergeValuesWith] at hok
      exact copyCase _ hok
    | href da =>
      simp only [mergeValuesWith] at hok
      cases hm : recMerge h da sa with
      | none => simp only [hm, Option.map] at hok; cases hok
      | some p =>
        obtain ⟨r, h1⟩ := p
        simp only [hm, Option.map] at hok
        injection hok with hok
        injection hok with ha hb
        subst hb
        subst ha
        simp only [valAvoids] at hDV
        obtain ⟨f1, hH1, m1, hr1⟩ := hM h da sa r h1 hm S hbound hH hDV
        refine ⟨f1, hH1, m1, ?_⟩
        simp only [valAvoids]
        rw [hr1]
        exact hDV
    | hbool bv =>
      simp only [mergeValuesWith] at hok
      exact copyCase _ hok
    | hnum q =>
      simp only [mergeValuesWith] at hok
      exact copyCase _ hok
    | hstr sv =>
      simp only [mergeValuesWith] at hok
      exact copyCase _ hok
    | harr des =>
      simp only [mergeValuesWith] at hok
      exact copyCase _ hok
  | harr ses =>
    cases dstV with
    | hnull =>
      simp only [mergeValuesWith] at hok
      exact copyCase _ hok
    | harr des =>
      simp only [mergeValuesWith] at hok
      exact appendSlicesWith_sframe recCopy hC h des ses mv h' S hok hbound hH
    | href da =>
      simp only [mergeValuesWith] at hok
      exact copyCase _ hok
    | hbool bv =>
      simp only [mergeValuesWith] at hok
      exact copyCase _ hok
    | hnum q =>
      simp only [mergeValuesWith] at hok
      exact copyCase _ hok
    | hstr sv =>
      simp only [mergeValuesWith] at hok
      exact copyCase _ hok
  | hbool bv =>
    cases dstV <;> (simp only [mergeValuesWith] at hok; exact copyCase _ hok)
  | hnum q =>
    cases dstV <;> (simp only [mergeValuesWith] at hok; exact copyCase _ hok)
  | hstr sv =>
    cases dstV <;> (simp only [mergeValuesWith] at hok; exact copyCase _ hok)

theorem mergeFoldWith_frame
    (recMV : Heap → HVal → HVal → Option (HVal × Heap))
    (recCopy : Heap → HVal → Option (HVal × Heap))
    (hMV : ∀ h dstV srcV mv h', recMV h dstV srcV = some (mv, h') →
      ∀ S : Nat → Prop, (∀ b, S b → b < h.next) → HeapAvoids S h → valAvoids S dstV →
        (∀ b, S b → heapRead h' b = heapRead h b) ∧ HeapAvoids S h' ∧
          h.next ≤ h'.next ∧ valAvoids S mv)
    (hC : ∀ h v r h', recCopy h v = some (r, h') →
      (h.next ≤ h'.next ∧ ∀ b, b < h.next → heapRead h' b = heapRead h b) ∧
      refsGe h.next r ∧ CellsExt h h') :
    ∀ (entries : List (String × HVal)) (h : Heap) (dstA : Nat) (h2 : Heap),
      mergeFoldWith recMV recCopy h dstA entries = some h2 →
      ∀ S : Nat → Prop, (∀ b, S b → b < h.next) → HeapAvoids S h → ¬ S dstA →
        (∀ b, S b → heapRead h2 b = heapRead h b) ∧ HeapAvoids S h2 ∧
          h.next ≤ h2.next := by
  intro entries
  induction entries with
  | nil =>
    intro h dstA h2 hok S hbound hH hnd
    rw [mergeFoldWith] at hok
    injection hok with hok
    subst hok
    exact ⟨fun _ _ => rfl, hH, le_refl _⟩
  | cons kv rest ih =>
    intro h dstA h2 hok S hbound hH hnd
    obtain ⟨k, srcVal⟩ := kv
    rw [mergeFoldWith] at hok
    cases hr : heapRead h dstA with
    | none => simp only [hr] at hok; cases hok
    | some dentries =>
      simp only [hr] at hok
      cases hl : alookup dentries k with
      | none =>
        simp only [hl] at hok
        cases hcv : recCopy h srcVal with
        | none => simp only [hcv] at hok; cases hok
        | some p =>
          obtain ⟨cv, hc1⟩ := p
          simp only [hcv] at hok
          cases hwk : heapWriteKey hc1 dstA k cv with
          | none => simp only [hwk] at hok; cases hok
          | some hw2 =>
            simp only [hwk] at hok
            obtain ⟨⟨m1, f1⟩, r1, c1⟩ := hC h srcVal cv hc1 hcv
            have hH1 : HeapAvoids S hc1 := cells_heapAvoids h hc1 S hbound hH c1
            have hv1 : valAvoids S cv := refsGe_valAvoids S h.next hbound cv r1
            obtain ⟨fw, hHw, hnw⟩ := heapWriteKey_sframe hc1 dstA k cv hw2 S hwk hnd hv1 hH1
            obtain ⟨f3, hH3, m3⟩ := ih hw2 dstA h2 hok S
              (fun b hb => by have := hbound b hb; omega) hHw hnd
            refine ⟨fun b hb => ?_, hH3, by omega⟩
            rw [f3 b hb, fw b hb, f1 b (hbound b hb)]
      | some dstVal =>
        simp only [hl] at hok
        cases hmv : recMV h dstVal srcVal with
        | none => simp only [hmv] at hok; cases hok
        | some p =>
          obtain ⟨mv, hm1⟩ := p
          simp only [hmv] at hok
          cases hwk : heapWriteKey hm1 dstA k mv with
          | none => simp only [hwk] at hok; cases hok
          | some hw2 =>
            simp only [hwk] at hok
            have hdv : valAvoids S dstVal :=
              hH dstA dentries hnd hr k dstVal (mem_of_alookup_some dentries k dstVal hl)
            obtain ⟨f1, hH1, m1, hv1⟩ := hMV h dstVal srcVal mv hm1 hmv S hbound hH hdv
            obtain ⟨fw, hHw, hnw⟩ := heapWriteKey_sframe hm1 dstA k mv hw2 S hwk hnd hv1 hH1
            obtain ⟨f3, hH3, m3⟩ := ih hw2 dstA h2 hok S
              (fun b hb => by have := hbound b hb; omega) hHw hnd
            refine ⟨fun b hb => ?_, hH3, by omega⟩
            rw [f3 b hb, fw b hb, f1 b hb]

theorem deepMergeH_sframe : ∀ (fuel : Nat) (h : Heap) (dstA sa : Nat) (r : Nat) (h' : Heap)
    (S : Nat → Prop),
    DeepMergeH fuel h (some dstA) (some sa) = some (r, h') →
    (∀ b, S b → b < h.next) → HeapAvoids S h → ¬ S dstA →
    (∀ b, S b → heapRead h' b = heapRead h b) ∧ HeapAvoids S h' ∧
      h.next ≤ h'.next ∧ r = dstA := by
  intro fuel
  induction fuel with
  | zero => intro h dstA sa r h' S hok; cases hok
  | succ fuel ih =>
    intro h dstA sa r h' S hok hbound hH hnd
    simp only [DeepMergeH] at hok
    cases hr : heapRead h sa with
    | none => simp only [hr] at hok; cases hok
    | some sentries =>
      simp only [hr] at hok
      cases hm : mergeFoldWith
          (fun h' dv sv => mergeValuesWith
            (fun h'' da sa' => DeepMergeH fuel h'' (some da) (some sa'))
            (fun h'' v => deepCopyValueH fuel h'' v) h' dv sv)
          (fun h' v => deepCopyValueH fuel h' v)
          h dstA sentries with
      | none => simp only [hm] at hok; cases hok
      | some h1 =>
        simp only [hm] at hok
        injection hok with hok
        injection hok with ha hb
        subst hb
        subst ha
        have hfold := mergeFoldWith_frame
          (fun h' dv sv => mergeValuesWith
            (fun h'' da sa' => DeepMergeH fuel h'' (some da) (some sa'))
            (fun h'' v => deepCopyValueH fuel h'' v) h' dv sv)
          (fun h' v => deepCopyValueH fuel h' v)
          (fun hh dv sv mv hh' hmok SS hbb hHH hdd =>
            mergeValuesWith_frame
              (fun h'' da sa' => DeepMergeH fuel h'' (some da) (some sa'))
              (fun h'' v => deepCopyValueH fuel h'' v)
              (fun h3 da sa' r3 h3' hok3 S3 hb3 hH3 hd3 =>
                ih h3 da sa' r3 h3' S3 hok3 hb3 hH3 hd3)
              (fun h3 v3 r3 h3' hok3 => deepCopyValueH_fresh fuel h3 v3 r3 h3' hok3)
              hh dv sv mv hh' SS (by exact hmok) hbb hHH hdd)
          (fun h3 v3 r3 h3' hok3 => deepCopyValueH_fresh fuel h3 v3 r3 h3' (by exact hok3))
          sentries h dstA h1 hm S hbound hH hnd
        exact ⟨hfold.1, hfold.2.1, hfold.2.2, rfl⟩

def heapAliased : Heap :=
  ⟨[(0, [("a", .harr [.hnum 1])]),
    (1, [("m", .href 0)]),
    (2, [("m", .href 0)])], 3⟩

def heapAliasedPost : Heap :=
  ⟨[(0, [("a", .harr [.hnum 1, .hnum 1])]),
    (1, [("m", .href 0)]),
    (2, [("m", .href 0)])], 3⟩

/-- C10 counterexample: with the map at address 0 shared between `dst`
(address 1) and `src` (address 2), `DeepMerge` merges the shared map in
place, so a value reachable from `src` changes — the slice under key "a"
grows from one element to two. -/
theorem deepMerge_frame_counterexample :
    heapRead heapAliased 2 = some [("m", .href 0)] ∧
    heapRead heapAliased 0 = some [("a", .harr [.hnum 1])] ∧
    DeepMergeH 10 heapAliased (some 1) (some 2) = some (1, heapAliasedPost) ∧
    heapRead heapAliasedPost 0 = some [("a", .harr [.hnum 1, .hnum 1])] :=
  ⟨rfl, rfl, rfl, rfl⟩

/-- C10: the merged map returned by `DeepMerge` is the `dst` argument
itself (a fresh empty map when `dst` is nil), and `src`-side state is
preserved exactly when nothing outside the protected region references
into it: for every address set `S` bounded by the allocation counter,
closed in the sense that no cell outside `S` holds a reference into `S`,
and not containing the `dst` root, every cell of `S` is unchanged by the
merge. -/
theorem deepMerge_inplace_frame_amended :
    (∀ (fuel : Nat) (h : Heap) (a : Nat) (srcO : Option Nat) (r : Nat) (h' : Heap),
      DeepMergeH fuel h (some a) srcO = some (r, h') → r = a) ∧
    (∀ (fuel : Nat) (h : Heap) (srcO : Option Nat) (r : Nat) (h' : Heap),
      DeepMergeH fuel h none srcO = some (r, h') → r = h.next) ∧
    (∀ (fuel : Nat) (h : Heap) (dstA sa r : Nat) (h' : Heap) (S : Nat → Prop),
      DeepMergeH fuel h (some dstA) (some sa) = some (r, h') →
      (∀ b, S b → b < h.next) → HeapAvoids S h → ¬ S dstA →
      ∀ b, S b → heapRead h' b = heapRead h b) :=
  ⟨fun fuel h a srcO r h' hok => deepMergeH_ret_some fuel h a srcO r h' hok,
   fun fuel h srcO r h' hok => deepMergeH_ret_none fuel h srcO r h' hok,
   fun fuel h dstA sa r h' S hok hb hH hnd =>
     (deepMergeH_sframe fuel h dstA sa r h' S hok hb hH hnd).1⟩

def heapSep : Heap := ⟨[(0, []), (2, [("y", .hnum 2)])], 3⟩

def heapSepPost : Heap := ⟨[(0, [("y", .hnum 2)]), (2, [("y", .hnum 2)])], 3⟩

theorem deepMerge_inplace_frame_amended_witness :
    ((0 : Nat) = 0) ∧ ((3 : Nat) = heapSep.next) ∧
    heapRead heapSepPost 2 = heapRead heapSep 2 := by
  refine ⟨?_, ?_, ?_⟩
  · exact deepMerge_inplace_frame_amended.1 5 heapSep 0 (some 2) 0 heapSepPost rfl
  · exact deepMerge_inplace_frame_amended.2.1 5 heapSep none 3
      ⟨[(3, []), (0, []), (2, [("y", .hnum 2)])], 4⟩ rfl
  · refine deepMerge_inplace_frame_amended.2.2 5 heapSep 0 2 0 heapSepPost
      (fun b => b = 2) rfl (fun b hb => by subst hb; decide) ?_ (by decide) 2 rfl
    intro a entries hna hread k v hmem
    by_cases h0 : (0 : Nat) = a
    · cases h0
      have he : some ([] : List (String × HVal)) = some entries := hread
      injection he with he
      rw [← he] at hmem
      cases hmem
    · by_cases h2 : (2 : Nat) = a
      · exact absurd h2.symm hna
      · simp [heapRead, nlookup, heapSep, h0, h2] at hread
